import Mathlib

/-!
Verification of the SZDT archive core against its specification.

This file gives a shallow embedding, in Lean 4, of the SZDT archive codec
and its cryptographic envelope, translated from the Rust sources
(szdt-core: memo.rs, did.rs, base58btc.rs, bytes.rs, nickname.rs,
ed25519.rs, ed25519_key_material.rs; the crate root: cbor_seq.rs;
szdt-cli: szdt.rs), and proves or refutes the specification claims about
them.

Modelling conventions:
  - Rust byte vectors and strings are modelled as lists of natural numbers
    (a string is the list of its UTF-8 code units; every string the claims
    touch is ASCII, so character classification is modelled on the ASCII
    fragment).
  - Machine integers (u64) are naturals together with explicit bounds in
    hypotheses where overflow could matter.
  - Fallible Rust functions return Except.
  - The dag-cbor wire codec (serde_ipld_dagcbor) is embedded at the byte
    level over the fragment of the CBOR data model that SZDT uses
    (unsigned integers, byte strings, text strings, arrays, maps with
    text keys, booleans, null). The library reports a single Eof decode
    error whenever the input ends before a complete value, whether at a
    value boundary or in the middle of a value; the embedding reproduces
    this.
  - The external cryptographic crates (blake3, ed25519-dalek, bs58) are
    not part of this repository; where their behaviour decides a claim
    they are modelled from the specification, see the doc comments of
    Hash, the ed25519 section, and the base58btc section.
-/

set_option maxRecDepth 4000000

namespace Szdt

/-! ## Big-endian byte encoding of naturals (CBOR argument encodings) -/

/-- Big-endian encoding of a natural on exactly k bytes (low k bytes of n). -/
def beBytes : Nat → Nat → List Nat
  | 0, _ => []
  | k+1, n => (n / 256 ^ k) % 256 :: beBytes k n

/-- Big-endian value of a byte list, with accumulator. -/
def fromBE (acc : Nat) : List Nat → Nat
  | [] => acc
  | b :: bs => fromBE (acc * 256 + b) bs

theorem mod_mul_decomp (n q B : Nat) :
    n % (q * B) = q * (n / q % B) + n % q := by
  have h1 : n % (q * B) / q = n / q % B := Nat.mod_mul_right_div_self n q B
  have h2 : n % (q * B) % q = n % q := Nat.mod_mod_of_dvd n ⟨B, rfl⟩
  have h3 := Nat.div_add_mod (n % (q * B)) q
  rw [h1, h2] at h3
  omega

theorem fromBE_beBytes (k : Nat) : ∀ (acc n : Nat),
    fromBE acc (beBytes k n) = acc * 256 ^ k + n % 256 ^ k := by
  induction k with
  | zero => intro acc n; simp [beBytes, fromBE, Nat.mod_one]
  | succ k ih =>
    intro acc n
    have hm : n % (256 ^ k * 256) = 256 ^ k * (n / 256 ^ k % 256) + n % 256 ^ k :=
      mod_mul_decomp n (256 ^ k) 256
    calc fromBE acc (beBytes (k+1) n)
        = fromBE (acc * 256 + n / 256 ^ k % 256) (beBytes k n) := by
          simp [beBytes, fromBE]
      _ = (acc * 256 + n / 256 ^ k % 256) * 256 ^ k + n % 256 ^ k := ih _ n
      _ = acc * 256 ^ (k+1) + n % 256 ^ (k+1) := by
          rw [pow_succ, hm]; ring

theorem beBytes_length (k n : Nat) : (beBytes k n).length = k := by
  induction k with
  | zero => simp [beBytes]
  | succ k ih => simp [beBytes, ih]

/-! ## CBOR head encoding

A CBOR data item starts with a head byte 32 * major + info. For info < 24
the argument is info itself; info 24, 25, 26, 27 announce a 1-, 2-, 4- or
8-byte big-endian argument. The dag-cbor profile, which
serde_ipld_dagcbor implements, always emits the shortest head. -/

/-- Encode a CBOR head for the given major type (0..7) and argument. -/
def encodeHead (major n : Nat) : List Nat :=
  if n < 24 then [32 * major + n]
  else if n < 256 then [32 * major + 24, n]
  else if n < 65536 then (32 * major + 25) :: beBytes 2 n
  else if n < 4294967296 then (32 * major + 26) :: beBytes 4 n
  else (32 * major + 27) :: beBytes 8 n

/-- Decode errors of the dag-cbor codec. The library distinguishes only
end-of-input (Eof) from every other failure; it raises Eof whenever the
input runs out before a complete value has been read, at a value boundary
or not. Every other malformation is collapsed into one constructor here
(the Rust library carries data no caller inspects). -/
inductive DecErr where
  | eof : DecErr
  | bad : DecErr
deriving DecidableEq, Repr

/-- Take exactly n bytes from the input, or report end of input. -/
def takeN (n : Nat) (bytes : List Nat) : Except DecErr (List Nat × List Nat) :=
  if n ≤ bytes.length then .ok (bytes.take n, bytes.drop n)
  else .error .eof

/-- Decode the argument of a head whose info field is given, returning the
argument and the remaining input. -/
def readArg (info : Nat) (bytes : List Nat) : Except DecErr (Nat × List Nat) :=
  if info < 24 then .ok (info, bytes)
  else if info = 24 then
    match takeN 1 bytes with
    | .ok (bs, rest) => .ok (fromBE 0 bs, rest)
    | .error e => .error e
  else if info = 25 then
    match takeN 2 bytes with
    | .ok (bs, rest) => .ok (fromBE 0 bs, rest)
    | .error e => .error e
  else if info = 26 then
    match takeN 4 bytes with
    | .ok (bs, rest) => .ok (fromBE 0 bs, rest)
    | .error e => .error e
  else if info = 27 then
    match takeN 8 bytes with
    | .ok (bs, rest) => .ok (fromBE 0 bs, rest)
    | .error e => .error e
  else .error .bad

/-- Read a complete CBOR head: the initial byte, then its argument.
Returns (major, argument, remaining input). -/
def readHead (bytes : List Nat) : Except DecErr (Nat × Nat × List Nat) :=
  match bytes with
  | [] => .error .eof
  | b :: rest =>
    match readArg (b % 32) rest with
    | .ok (n, r) => .ok (b / 32, n, r)
    | .error e => .error e

theorem takeN_append (bs rest : List Nat) :
    takeN bs.length (bs ++ rest) = .ok (bs, rest) := by
  simp [takeN]

theorem takeN_append_of_length (k : Nat) (bs rest : List Nat) (h : bs.length = k) :
    takeN k (bs ++ rest) = .ok (bs, rest) := by
  subst h; exact takeN_append bs rest

theorem fromBE_zero_beBytes (k n : Nat) (h : n < 256 ^ k) :
    fromBE 0 (beBytes k n) = n := by
  rw [fromBE_beBytes k 0 n, Nat.mod_eq_of_lt h]; omega

/-- Reading back a head written by encodeHead recovers the major type and
argument, provided the argument fits in 64 bits (every length or integer
the Rust code writes is a usize or u64). -/
theorem readHead_encodeHead (major n : Nat) (rest : List Nat)
    (hn : n < 2 ^ 64) :
    readHead (encodeHead major n ++ rest) = .ok (major, n, rest) := by
  unfold encodeHead
  by_cases h24 : n < 24
  · have e1 : (32 * major + n) % 32 = n := by omega
    have e2 : (32 * major + n) / 32 = major := by omega
    simp [if_pos h24, readHead, readArg, e1, e2, h24]
  · by_cases h256 : n < 256
    · have e1 : (32 * major + 24) % 32 = 24 := by omega
      have e2 : (32 * major + 24) / 32 = major := by omega
      have ht : takeN 1 (n :: rest) = .ok ([n], rest) :=
        takeN_append_of_length 1 [n] rest rfl
      simp [if_neg h24, if_pos h256, readHead, readArg, e1, e2, ht, fromBE]
    · by_cases h2 : n < 65536
      · have e1 : (32 * major + 25) % 32 = 25 := by omega
        have e2 : (32 * major + 25) / 32 = major := by omega
        have ht : takeN 2 (beBytes 2 n ++ rest) = .ok (beBytes 2 n, rest) :=
          takeN_append_of_length 2 _ rest (beBytes_length 2 n)
        have hv : fromBE 0 (beBytes 2 n) = n :=
          fromBE_zero_beBytes 2 n (by norm_num; omega)
        simp [if_neg h24, if_neg h256, if_pos h2, readHead, readArg, e1, e2, ht, hv]
      · by_cases h4 : n < 4294967296
        · have e1 : (32 * major + 26) % 32 = 26 := by omega
          have e2 : (32 * major + 26) / 32 = major := by omega
          have ht : takeN 4 (beBytes 4 n ++ rest) = .ok (beBytes 4 n, rest) :=
            takeN_append_of_length 4 _ rest (beBytes_length 4 n)
          have hv : fromBE 0 (beBytes 4 n) = n :=
            fromBE_zero_beBytes 4 n (by norm_num; omega)
          simp [if_neg h24, if_neg h256, if_neg h2, if_pos h4, readHead, readArg,
            e1, e2, ht, hv]
        · have e1 : (32 * major + 27) % 32 = 27 := by omega
          have e2 : (32 * major + 27) / 32 = major := by omega
          have ht : takeN 8 (beBytes 8 n ++ rest) = .ok (beBytes 8 n, rest) :=
            takeN_append_of_length 8 _ rest (beBytes_length 8 n)
          have hv : fromBE 0 (beBytes 8 n) = n :=
            fromBE_zero_beBytes 8 n (by norm_num; omega)
          simp [if_neg h24, if_neg h256, if_neg h2, if_neg h4, readHead, readArg,
            e1, e2, ht, hv]

theorem encodeHead_length_pos (major n : Nat) : 0 < (encodeHead major n).length := by
  unfold encodeHead
  repeat' split
  all_goals simp

theorem encodeHead_length_le (major n : Nat) : (encodeHead major n).length ≤ 9 := by
  unfold encodeHead
  repeat' split
  all_goals simp [beBytes_length]

/-! ## The dag-cbor value fragment used by SZDT

serde_ipld_dagcbor serializes the SZDT structures into CBOR values built
from unsigned integers (u64), byte strings, text strings, arrays, maps
with text keys, booleans and null. Text strings are carried here as their
lists of UTF-8 code units. -/

mutual
inductive Value where
  | nat : Nat → Value
  | bytes : List Nat → Value
  | text : List Nat → Value
  | bool : Bool → Value
  | null : Value
  | array : VList → Value
  | map : VPairs → Value
deriving DecidableEq, Repr
inductive VList where
  | nil : VList
  | cons : Value → VList → VList
deriving DecidableEq, Repr
inductive VPairs where
  | nil : VPairs
  | cons : List Nat → Value → VPairs → VPairs
deriving DecidableEq, Repr
end

/-- Number of entries of a value list. -/
def VList.length : VList → Nat
  | .nil => 0
  | .cons _ vs => vs.length + 1

/-- Number of entries of a pair list. -/
def VPairs.length : VPairs → Nat
  | .nil => 0
  | .cons _ _ ps => ps.length + 1

/-- Keys of a pair list, in order. -/
def VPairs.keys : VPairs → List (List Nat)
  | .nil => []
  | .cons k _ ps => k :: ps.keys

/-- First value stored under the given key, if any (serde looks fields up
by name). -/
def VPairs.lookup (key : List Nat) : VPairs → Option Value
  | .nil => none
  | .cons k v ps => if k = key then some v else ps.lookup key

mutual
/-- Byte-level dag-cbor encoding of a value, translated from the cbor4ii
encoder that serde_ipld_dagcbor drives: minimal heads, definite lengths,
booleans and null as major-7 simple values 20, 21, 22. -/
def encodeVal : Value → List Nat
  | .nat n => encodeHead 0 n
  | .bytes bs => encodeHead 2 bs.length ++ bs
  | .text s => encodeHead 3 s.length ++ s
  | .bool b => [if b then 245 else 244]
  | .null => [246]
  | .array vs => encodeHead 4 vs.length ++ encodeVList vs
  | .map ps => encodeHead 5 ps.length ++ encodeVPairs ps
def encodeVList : VList → List Nat
  | .nil => []
  | .cons v vs => encodeVal v ++ encodeVList vs
def encodeVPairs : VPairs → List Nat
  | .nil => []
  | .cons k v ps => encodeHead 3 k.length ++ k ++ encodeVal v ++ encodeVPairs ps
end

mutual
/-- Nesting depth of a value; decoding consumes one unit of fuel per
nesting level. -/
def vdepth : Value → Nat
  | .nat _ => 1
  | .bytes _ => 1
  | .text _ => 1
  | .bool _ => 1
  | .null => 1
  | .array vs => vldepth vs + 1
  | .map ps => vpdepth ps + 1
def vldepth : VList → Nat
  | .nil => 0
  | .cons v vs => max (vdepth v) (vldepth vs)
def vpdepth : VPairs → Nat
  | .nil => 0
  | .cons _ v ps => max (vdepth v) (vpdepth ps)
end

mutual
/-- A value is encodable exactly when every integer and every length in it
fits in 64 bits, as is forced in Rust by the u64 and usize types. -/
def vvalid : Value → Bool
  | .nat n => n < 2 ^ 64
  | .bytes bs => bs.length < 2 ^ 64
  | .text s => s.length < 2 ^ 64
  | .bool _ => true
  | .null => true
  | .array vs => decide (vs.length < 2 ^ 64) && vlvalid vs
  | .map ps => decide (ps.length < 2 ^ 64) && vpvalid ps
def vlvalid : VList → Bool
  | .nil => true
  | .cons v vs => vvalid v && vlvalid vs
def vpvalid : VPairs → Bool
  | .nil => true
  | .cons k v ps => decide (k.length < 2 ^ 64) && vvalid v && vpvalid ps
end

/-- Decode a list of n values (the items of an array head announcing n),
with the decoder for a single value passed in. -/
def decodeItems (dec : List Nat → Except DecErr (Value × List Nat)) :
    Nat → List Nat → Except DecErr (VList × List Nat)
  | 0, bytes => .ok (.nil, bytes)
  | n+1, bytes =>
    match dec bytes with
    | .error e => .error e
    | .ok (v, r) =>
      match decodeItems dec n r with
      | .error e => .error e
      | .ok (vs, r2) => .ok (.cons v vs, r2)

/-- Decode n key-value pairs (the entries of a map head announcing n).
Each key must be a text string, as serde requires for struct fields. -/
def decodePairs (dec : List Nat → Except DecErr (Value × List Nat)) :
    Nat → List Nat → Except DecErr (VPairs × List Nat)
  | 0, bytes => .ok (.nil, bytes)
  | n+1, bytes =>
    match dec bytes with
    | .error e => .error e
    | .ok (.text k, r) =>
      match dec r with
      | .error e => .error e
      | .ok (v, r2) =>
        match decodePairs dec n r2 with
        | .error e => .error e
        | .ok (ps, r3) => .ok (.cons k v ps, r3)
    | .ok (_, _) => .error .bad

/-- Decode one dag-cbor value from the front of the input, returning the
remaining input. Fuel bounds the nesting depth; callers supply more fuel
than the input length, which a complete value can never exhaust since
every nesting level consumes at least one byte. Running out of input at
any point, mid-value or not, is the Eof error, exactly as in the cbor4ii
decoder underneath serde_ipld_dagcbor. Majors 1 (negative) and 6 (tags)
are not produced by any SZDT structure and are mapped to the generic
decode error here. -/
def decodeVal : Nat → List Nat → Except DecErr (Value × List Nat)
  | 0, _ => .error .bad
  | fuel+1, bytes =>
    match readHead bytes with
    | .error e => .error e
    | .ok (major, n, r) =>
      if major = 0 then .ok (.nat n, r)
      else if major = 2 then
        match takeN n r with
        | .error e => .error e
        | .ok (bs, r2) => .ok (.bytes bs, r2)
      else if major = 3 then
        match takeN n r with
        | .error e => .error e
        | .ok (s, r2) => .ok (.text s, r2)
      else if major = 4 then
        match decodeItems (decodeVal fuel) n r with
        | .error e => .error e
        | .ok (vs, r2) => .ok (.array vs, r2)
      else if major = 5 then
        match decodePairs (decodeVal fuel) n r with
        | .error e => .error e
        | .ok (ps, r2) => .ok (.map ps, r2)
      else if major = 7 then
        if n = 20 then .ok (.bool false, r)
        else if n = 21 then .ok (.bool true, r)
        else if n = 22 then .ok (.null, r)
        else .error .bad
      else .error .bad

/-! ### Round trip of the value codec -/

theorem decodePairs_key_step (dec : List Nat → Except DecErr (Value × List Nat))
    (n : Nat) (k : List Nat) (v : Value) (ps : VPairs) (bytes r r2 r3 : List Nat)
    (hk : dec bytes = .ok (.text k, r))
    (hv : dec r = .ok (v, r2))
    (hps : decodePairs dec n r2 = .ok (ps, r3)) :
    decodePairs dec (n+1) bytes = .ok (.cons k v ps, r3) := by
  simp [decodePairs, hk, hv, hps]

theorem vdepth_pos (v : Value) : 1 ≤ vdepth v := by
  cases v <;> simp [vdepth]

/-- Decoding an encoded text value, stated on its own so the key decoding
inside map entries needs no recursion. -/
theorem decodeVal_text (k : List Nat) (fuel : Nat) (rest : List Nat)
    (hk : k.length < 2 ^ 64) :
    decodeVal (fuel+1) ((encodeHead 3 k.length ++ k) ++ rest) =
      .ok (.text k, rest) := by
  have hh := readHead_encodeHead 3 k.length (k ++ rest) hk
  simp only [List.append_assoc]
  simp [decodeVal, hh, takeN_append k rest]

mutual
theorem decodeVal_encodeVal : ∀ (v : Value) (fuel : Nat) (rest : List Nat),
    vvalid v = true → vdepth v ≤ fuel →
    decodeVal fuel (encodeVal v ++ rest) = .ok (v, rest) := by
  intro v fuel rest hval hd
  match v with
  | .nat n =>
    cases fuel with
    | zero => simp [vdepth] at hd
    | succ f =>
      have hn : n < 2 ^ 64 := by simpa [vvalid] using hval
      simp [decodeVal, encodeVal, readHead_encodeHead 0 n rest hn]
  | .bytes bs =>
    cases fuel with
    | zero => simp [vdepth] at hd
    | succ f =>
      have hn : bs.length < 2 ^ 64 := by simpa [vvalid] using hval
      have hh := readHead_encodeHead 2 bs.length (bs ++ rest) hn
      simp [decodeVal, encodeVal, hh, takeN_append bs rest]
  | .text s =>
    cases fuel with
    | zero => simp [vdepth] at hd
    | succ f =>
      have hn : s.length < 2 ^ 64 := by simpa [vvalid] using hval
      have hh := readHead_encodeHead 3 s.length (s ++ rest) hn
      simp [decodeVal, encodeVal, hh, takeN_append s rest]
  | .bool b =>
    cases fuel with
    | zero => simp [vdepth] at hd
    | succ f =>
      cases b <;> simp [decodeVal, encodeVal, readHead, readArg]
  | .null =>
    cases fuel with
    | zero => simp [vdepth] at hd
    | succ f =>
      simp [decodeVal, encodeVal, readHead, readArg]
  | .array vs =>
    cases fuel with
    | zero => simp [vdepth] at hd
    | succ f =>
      have hn : vs.length < 2 ^ 64 := by
        have h := hval; simp [vvalid] at h; exact h.1
      have hvs : vlvalid vs = true := by
        have h := hval; simp [vvalid] at h; exact h.2
      have hh := readHead_encodeHead 4 vs.length (encodeVList vs ++ rest) hn
      have hi := decodeItems_encodeVList vs f rest hvs
        (by simp [vdepth] at hd; omega)
      simp [decodeVal, encodeVal, hh, hi]
  | .map ps =>
    cases fuel with
    | zero => simp [vdepth] at hd
    | succ f =>
      have hn : ps.length < 2 ^ 64 := by
        have h := hval; simp [vvalid] at h; exact h.1
      have hps : vpvalid ps = true := by
        have h := hval; simp [vvalid] at h; exact h.2
      have hh := readHead_encodeHead 5 ps.length (encodeVPairs ps ++ rest) hn
      have hi := decodePairs_encodeVPairs ps f rest hps
        (by simp [vdepth] at hd; omega)
      simp [decodeVal, encodeVal, hh, hi]

theorem decodeItems_encodeVList : ∀ (vs : VList) (fuel : Nat) (rest : List Nat),
    vlvalid vs = true → vldepth vs ≤ fuel →
    decodeItems (decodeVal fuel) vs.length (encodeVList vs ++ rest) =
      .ok (vs, rest) := by
  intro vs fuel rest hval hd
  match vs with
  | .nil => simp [VList.length, encodeVList, decodeItems]
  | .cons v vs =>
    have hv : vvalid v = true := by
      have h := hval; simp [vlvalid] at h; exact h.1
    have hvs : vlvalid vs = true := by
      have h := hval; simp [vlvalid] at h; exact h.2
    have hd1 : vdepth v ≤ fuel := by
      simp [vldepth] at hd; omega
    have hd2 : vldepth vs ≤ fuel := by
      simp [vldepth] at hd; omega
    have h1 := decodeVal_encodeVal v fuel (encodeVList vs ++ rest) hv hd1
    have h2 := decodeItems_encodeVList vs fuel rest hvs hd2
    simp [VList.length, encodeVList, decodeItems, h1, h2]

theorem decodePairs_encodeVPairs : ∀ (ps : VPairs) (fuel : Nat) (rest : List Nat),
    vpvalid ps = true → vpdepth ps ≤ fuel →
    decodePairs (decodeVal fuel) ps.length (encodeVPairs ps ++ rest) =
      .ok (ps, rest) := by
  intro ps fuel rest hval hd
  match ps with
  | .nil => simp [VPairs.length, encodeVPairs, decodePairs]
  | .cons k v ps =>
    have hk : k.length < 2 ^ 64 := by
      have h := hval; simp [vpvalid] at h; omega
    have hv : vvalid v = true := by
      have h := hval; simp [vpvalid] at h; exact h.1.2
    have hps : vpvalid ps = true := by
      have h := hval; simp [vpvalid] at h; exact h.2
    have hd1 : vdepth v ≤ fuel := by
      simp [vpdepth] at hd; omega
    have hd2 : vpdepth ps ≤ fuel := by
      simp [vpdepth] at hd; omega
    have hd0 : 1 ≤ fuel := by
      have := vdepth_pos v; simp [vpdepth] at hd; omega
    obtain ⟨f, rfl⟩ : ∃ f, fuel = f + 1 := ⟨fuel - 1, by omega⟩
    have h0 := decodeVal_text k f (encodeVal v ++ encodeVPairs ps ++ rest) hk
    have h1 := decodeVal_encodeVal v (f+1) (encodeVPairs ps ++ rest) hv hd1
    have h2 := decodePairs_encodeVPairs ps (f+1) rest hps hd2
    have hsplit : encodeVPairs (.cons k v ps) ++ rest =
        (encodeHead 3 k.length ++ k) ++ (encodeVal v ++ encodeVPairs ps ++ rest) := by
      simp [encodeVPairs]
    rw [hsplit, show VPairs.length (.cons k v ps) = ps.length + 1 from rfl]
    exact decodePairs_key_step (decodeVal (f+1)) ps.length k v ps _ _ _ _
      h0 (by simpa using h1) h2
end

theorem encodeVal_length_pos : ∀ v : Value, 1 ≤ (encodeVal v).length
  | .nat n => by simpa [encodeVal] using encodeHead_length_pos 0 n
  | .bytes bs => by
      simp [encodeVal]; have := encodeHead_length_pos 2 bs.length; omega
  | .text s => by
      simp [encodeVal]; have := encodeHead_length_pos 3 s.length; omega
  | .bool b => by simp [encodeVal]
  | .null => by simp [encodeVal]
  | .array vs => by
      simp [encodeVal]; have := encodeHead_length_pos 4 vs.length; omega
  | .map ps => by
      simp [encodeVal]; have := encodeHead_length_pos 5 ps.length; omega

mutual
theorem vdepth_le_encLen : ∀ v : Value, vdepth v ≤ (encodeVal v).length := by
  intro v
  match v with
  | .nat n => simp [vdepth, encodeVal]; exact encodeHead_length_pos 0 n
  | .bytes bs => simp [vdepth, encodeVal]; have := encodeHead_length_pos 2 bs.length; omega
  | .text s => simp [vdepth, encodeVal]; have := encodeHead_length_pos 3 s.length; omega
  | .bool b => simp [vdepth, encodeVal]
  | .null => simp [vdepth, encodeVal]
  | .array vs =>
    have h1 := vldepth_le_encLen vs
    have h2 := encodeHead_length_pos 4 vs.length
    simp [vdepth, encodeVal]; omega
  | .map ps =>
    have h1 := vpdepth_le_encLen ps
    have h2 := encodeHead_length_pos 5 ps.length
    simp [vdepth, encodeVal]; omega

theorem vldepth_le_encLen : ∀ vs : VList, vldepth vs ≤ (encodeVList vs).length := by
  intro vs
  match vs with
  | .nil => simp [vldepth, encodeVList]
  | .cons v vs =>
    have h1 := vdepth_le_encLen v
    have h2 := vldepth_le_encLen vs
    simp [vldepth, encodeVList]; omega

theorem vpdepth_le_encLen : ∀ ps : VPairs, vpdepth ps ≤ (encodeVPairs ps).length := by
  intro ps
  match ps with
  | .nil => simp [vpdepth, encodeVPairs]
  | .cons k v ps =>
    have h1 := vdepth_le_encLen v
    have h2 := vpdepth_le_encLen ps
    simp [vpdepth, encodeVPairs]; omega
end

/-! ## The error type of szdt-core (error.rs) -/

/-- Error kinds of szdt_core::error::Error, restricted to the variants the
embedded code can produce. MemoNbfError and MemoExpError carry the
TimestampComparison record (timestamp bound, observed now), both optional
exactly as in the source. -/
inductive Error where
  | cborDecode : Error
  | eof : Error
  | memoIssMissing : Error
  | memoUnsigned : Error
  | memoNbfError : Option Nat → Option Nat → Error
  | memoExpError : Option Nat → Option Nat → Error
  | integrityError : Error
  | privateKeyMissing : Error
  | ed25519 : Error
  | didError : Error
deriving DecidableEq, Repr

/-! ## Block sequence codec (cbor_seq.rs)

CborSeqReader::read_block decodes one value from the front of the stream
with serde_ipld_dagcbor::de::from_reader_once, mapping the library's Eof
to Error::Eof and every other decode failure to Error::CborDecode.
CborSeqWriter::write_block appends the encoding of one value to the
stream. The reader state is the list of bytes not yet consumed. -/

/-- Decode one block (one dag-cbor value) from the front of the stream,
returning it with the remaining stream. Translated from
CborSeqReader::read_block; the fuel passed to the value decoder exceeds
the input length and hence can never run out on an input the encoder
produced, since every nesting level consumes at least one input byte. -/
def readBlockValue (bytes : List Nat) : Except Error (Value × List Nat) :=
  match decodeVal (bytes.length + 1) bytes with
  | .ok (v, r) => .ok (v, r)
  | .error .eof => .error .eof
  | .error .bad => .error .cborDecode

/-- Encoding of one block appended to the stream by
CborSeqWriter::write_block. -/
def writeBlock (v : Value) : List Nat := encodeVal v

theorem decodeVal_fuel_ge (v : Value) (rest : List Nat) (fuel : Nat)
    (hval : vvalid v = true) (hfuel : (encodeVal v).length ≤ fuel) :
    decodeVal fuel (encodeVal v ++ rest) = .ok (v, rest) :=
  decodeVal_encodeVal v fuel rest hval
    (Nat.le_trans (vdepth_le_encLen v) hfuel)

/-- Round trip of the block codec: reading a written block returns the
value and leaves exactly the trailing stream. -/
theorem readBlockValue_writeBlock (v : Value) (rest : List Nat)
    (hval : vvalid v = true) :
    readBlockValue (writeBlock v ++ rest) = .ok (v, rest) := by
  unfold readBlockValue writeBlock
  rw [decodeVal_fuel_ge v rest _ hval (by simp; omega)]

/-- Reading from an exhausted stream is the Eof error. -/
theorem readBlockValue_nil : readBlockValue [] = .error .eof := by
  simp [readBlockValue, decodeVal, readHead]

/-! ## Base58BTC (base58btc.rs)

The Rust module delegates to the external bs58 crate.

Modelled from the spec: base58btc encoding of a byte string, section 3 of
the specification (the bs58 crate is not part of this repository). The
byte string is read as a big-endian number; the encoding is one
character 1 per leading zero byte, followed by the base-58 digits of the
number, most significant first, over the Bitcoin alphabet. Decoding
rejects characters outside the alphabet, counts leading 1 characters as
zero bytes, and writes the number back in big-endian with no leading
zero byte. -/

/-- Little-endian base-B digits of n, fuel-bounded (no digits for 0). -/
def digitsLE (B : Nat) : Nat → Nat → List Nat
  | 0, _ => []
  | fuel+1, n => if n = 0 then [] else n % B :: digitsLE B fuel (n / B)

/-- Number denoted by a little-endian base-B digit list. -/
def undigits (B : Nat) : List Nat → Nat
  | [] => 0
  | d :: ds => d + B * undigits B ds

/-- Exactly k little-endian base-B digits of n, zero-padded. -/
def padDigits (B : Nat) : Nat → Nat → List Nat
  | 0, _ => []
  | k+1, n => n % B :: padDigits B k (n / B)

theorem getLast?_cons_ne {α : Type} (a : α) (l : List α) (h : l ≠ []) :
    (a :: l).getLast? = l.getLast? := by
  cases l with
  | nil => simp at h
  | cons b bs => exact List.getLast?_cons_cons

theorem undigits_cons (B d : Nat) (ds : List Nat) :
    undigits B (d :: ds) = d + B * undigits B ds := rfl

theorem digitsLE_zero (B : Nat) : ∀ fuel, digitsLE B fuel 0 = [] := by
  intro fuel; cases fuel <;> simp [digitsLE]

theorem undigits_digitsLE (B : Nat) (hB : 2 ≤ B) :
    ∀ fuel n, n < B ^ fuel → undigits B (digitsLE B fuel n) = n := by
  intro fuel
  induction fuel with
  | zero => intro n hn; simp at hn; simp [hn, digitsLE, undigits]
  | succ f ih =>
    intro n hn
    by_cases h0 : n = 0
    · simp [h0, digitsLE, undigits]
    · have hdiv : n / B < B ^ f := by
        rw [Nat.div_lt_iff_lt_mul (by omega)]
        calc n < B ^ (f+1) := hn
          _ = B ^ f * B := pow_succ B f
      simp only [digitsLE, if_neg h0, undigits]
      rw [ih (n / B) hdiv]
      exact Nat.mod_add_div n B

theorem digitsLE_lt (B : Nat) (hB : 2 ≤ B) :
    ∀ fuel n d, d ∈ digitsLE B fuel n → d < B := by
  intro fuel
  induction fuel with
  | zero => intro n d hd; simp [digitsLE] at hd
  | succ f ih =>
    intro n d hd
    by_cases h0 : n = 0
    · simp [h0, digitsLE] at hd
    · simp only [digitsLE, if_neg h0, List.mem_cons] at hd
      rcases hd with h | h
      · subst h; exact Nat.mod_lt n (by omega)
      · exact ih (n / B) d h

theorem digitsLE_ne_nil (B : Nat) (fuel n : Nat) (h0 : n ≠ 0) (hf : fuel ≠ 0) :
    digitsLE B fuel n ≠ [] := by
  obtain ⟨f, rfl⟩ : ∃ f, fuel = f + 1 := ⟨fuel - 1, by omega⟩
  simp [digitsLE, h0]

theorem digitsLE_getLast (B : Nat) (hB : 2 ≤ B) :
    ∀ fuel n, n < B ^ fuel → (digitsLE B fuel n).getLast? ≠ some 0 := by
  intro fuel
  induction fuel with
  | zero => intro n hn; simp at hn; simp [hn, digitsLE]
  | succ f ih =>
    intro n hn
    by_cases h0 : n = 0
    · simp [h0, digitsLE]
    · have hdiv : n / B < B ^ f := by
        rw [Nat.div_lt_iff_lt_mul (by omega)]
        calc n < B ^ (f+1) := hn
          _ = B ^ f * B := pow_succ B f
      simp only [digitsLE, if_neg h0]
      by_cases hq : n / B = 0
      · have hmod : n % B = n := by
          have h := Nat.div_add_mod n B
          rw [hq, Nat.mul_zero] at h; omega
        simp [hq, digitsLE_zero, hmod, h0]
      · have hne : digitsLE B f (n / B) ≠ [] :=
          digitsLE_ne_nil B f (n / B) hq (by
            intro hf
            rw [hf, pow_zero] at hdiv
            exact hq (Nat.lt_one_iff.mp hdiv))
        rw [getLast?_cons_ne _ _ hne]
        exact ih (n / B) hdiv

theorem undigits_pos (B : Nat) (hB : 2 ≤ B) :
    ∀ ds : List Nat, ds ≠ [] → ds.getLast? ≠ some 0 → 0 < undigits B ds := by
  intro ds
  induction ds with
  | nil => intro h; simp at h
  | cons d ds ih =>
    intro _ hlast
    cases ds with
    | nil =>
      simp at hlast
      rw [undigits_cons]
      have : undigits B [] = 0 := rfl
      omega
    | cons e es =>
      rw [getLast?_cons_ne _ _ (by simp)] at hlast
      have h1 := ih (by simp) hlast
      have h2 : 0 < B * undigits B (e :: es) := Nat.mul_pos (by omega) h1
      rw [undigits_cons]
      omega

theorem digitsLE_undigits (B : Nat) (hB : 2 ≤ B) :
    ∀ ds : List Nat, ∀ fuel, (∀ d ∈ ds, d < B) → ds.getLast? ≠ some 0 →
      ds.length ≤ fuel → digitsLE B fuel (undigits B ds) = ds := by
  intro ds
  induction ds with
  | nil => intro fuel _ _ _; cases fuel <;> simp [undigits, digitsLE]
  | cons d ds ih =>
    intro fuel hlt hlast hlen
    obtain ⟨f, rfl⟩ : ∃ f, fuel = f + 1 := ⟨fuel - 1, by simp at hlen; omega⟩
    have hd : d < B := hlt d (by simp)
    cases ds with
    | nil =>
      have hd0 : d ≠ 0 := by simp at hlast; exact hlast
      have h1 : undigits B [d] = d := by simp [undigits]
      rw [h1]
      have : d % B = d := Nat.mod_eq_of_lt hd
      simp [digitsLE, hd0, this, Nat.div_eq_of_lt hd, digitsLE_zero]
    | cons e es =>
      rw [getLast?_cons_ne _ _ (by simp)] at hlast
      have hpos : 0 < undigits B (e :: es) := undigits_pos B hB _ (by simp) hlast
      have hBpos : 0 < B * undigits B (e :: es) := Nat.mul_pos (by omega) hpos
      have hn0 : undigits B (d :: e :: es) ≠ 0 := by
        rw [undigits_cons]; omega
      have hmod : undigits B (d :: e :: es) % B = d := by
        rw [undigits_cons, Nat.add_mul_mod_self_left, Nat.mod_eq_of_lt hd]
      have hdiv : undigits B (d :: e :: es) / B = undigits B (e :: es) := by
        rw [undigits_cons, Nat.add_mul_div_left d _ (by omega : 0 < B),
          Nat.div_eq_of_lt hd]
        omega
      simp only [digitsLE, if_neg hn0, hmod, hdiv]
      rw [ih f (fun x hx => hlt x (by simp [hx])) hlast
        (by simp only [List.length_cons] at hlen ⊢; omega)]

theorem undigits_lt (B : Nat) (hB : 2 ≤ B) :
    ∀ ds : List Nat, (∀ d ∈ ds, d < B) → undigits B ds < B ^ ds.length := by
  intro ds
  induction ds with
  | nil => intro _; simp [undigits]
  | cons d ds ih =>
    intro hlt
    have h1 := ih (fun x hx => hlt x (by simp [hx]))
    have h2 : d < B := hlt d (by simp)
    simp only [undigits, List.length_cons, pow_succ]
    calc d + B * undigits B ds < B + B * undigits B ds := by omega
      _ = B * (undigits B ds + 1) := by ring
      _ ≤ B * B ^ ds.length := by
          have : undigits B ds + 1 ≤ B ^ ds.length := h1
          exact Nat.mul_le_mul_left B this
      _ = B ^ ds.length * B := by ring

theorem undigits_ge (B : Nat) (hB : 2 ≤ B) :
    ∀ ds : List Nat, ds ≠ [] → ds.getLast? ≠ some 0 →
      B ^ (ds.length - 1) ≤ undigits B ds := by
  intro ds
  induction ds with
  | nil => intro h; simp at h
  | cons d ds ih =>
    intro _ hlast
    cases ds with
    | nil =>
      simp at hlast
      simp [undigits]
      omega
    | cons e es =>
      rw [getLast?_cons_ne _ _ (by simp)] at hlast
      have h1 := ih (by simp) hlast
      rw [undigits_cons]
      have h3 : (e :: es).length + 1 - 1 = ((e :: es).length - 1) + 1 := by simp
      rw [List.length_cons, h3, pow_succ]
      calc B ^ ((e :: es).length - 1) * B ≤ undigits B (e :: es) * B :=
            Nat.mul_le_mul_right B h1
          _ ≤ d + B * undigits B (e :: es) := by
            rw [Nat.mul_comm]; omega

theorem undigits_append (B : Nat) :
    ∀ ds es : List Nat,
      undigits B (ds ++ es) = undigits B ds + B ^ ds.length * undigits B es := by
  intro ds es
  induction ds with
  | nil => simp [undigits]
  | cons d ds ih =>
    calc undigits B ((d :: ds) ++ es)
        = d + B * undigits B (ds ++ es) := rfl
    _ = d + B * (undigits B ds + B ^ ds.length * undigits B es) := by rw [ih]
    _ = undigits B (d :: ds) + B ^ (d :: ds).length * undigits B es := by
          rw [undigits_cons, List.length_cons, pow_succ]
          ring

theorem digitsLE_split (B : Nat) (hB : 2 ≤ B) :
    ∀ (k fuel n : Nat), k ≤ fuel → n / B ^ k ≠ 0 →
      digitsLE B fuel n = padDigits B k n ++ digitsLE B (fuel - k) (n / B ^ k) := by
  intro k
  induction k with
  | zero => intro fuel n _ _; simp [padDigits]
  | succ k ih =>
    intro fuel n hk hq
    obtain ⟨f, rfl⟩ : ∃ f, fuel = f + 1 := ⟨fuel - 1, by omega⟩
    have hdd : n / B / B ^ k = n / B ^ (k+1) := by
      rw [Nat.div_div_eq_div_mul, ← pow_succ']
    have hq' : n / B / B ^ k ≠ 0 := by rw [hdd]; exact hq
    have hn0 : n ≠ 0 := by
      intro h; subst h; simp at hq
    have hih := ih f (n / B) (by omega) hq'
    have hfk : f + 1 - (k + 1) = f - k := by omega
    simp only [digitsLE, if_neg hn0, padDigits, List.cons_append, hfk]
    rw [hih, hdd]

/-- The Bitcoin base58 alphabet as byte values. -/
def alphabet : List Nat :=
  [49, 50, 51, 52, 53, 54, 55, 56, 57, 65, 66, 67, 68, 69, 70, 71, 72, 74,
   75, 76, 77, 78, 80, 81, 82, 83, 84, 85, 86, 87, 88, 89, 90, 97, 98, 99,
   100, 101, 102, 103, 104, 105, 106, 107, 109, 110, 111, 112, 113, 114,
   115, 116, 117, 118, 119, 120, 121, 122]

/-- Character for a digit value. -/
def alphaChar (d : Nat) : Nat := alphabet.getD d 0

/-- Digit value for a character, if it is in the alphabet. -/
def alphaVal (c : Nat) : Option Nat := alphabet.findIdx? (· = c)

/-- Base58BTC encoding of a byte string. -/
def encode58 (bytes : List Nat) : List Nat :=
  List.replicate (bytes.takeWhile (· = 0)).length 49 ++
    ((digitsLE 58 (2 * bytes.length + 1)
      (undigits 256 bytes.reverse)).reverse.map alphaChar)

/-- Digit values of a character list; none when a character is outside
the alphabet. -/
def digitVals : List Nat → Option (List Nat)
  | [] => some []
  | c :: cs =>
    match alphaVal c, digitVals cs with
    | some d, some ds => some (d :: ds)
    | _, _ => none

/-- Base58BTC decoding of a string; none when a character is outside the
alphabet. -/
def decode58 (s : List Nat) : Option (List Nat) :=
  match digitVals s with
  | none => none
  | some digits =>
    some (List.replicate (s.takeWhile (· = 49)).length 0 ++
      (digitsLE 256 (s.length + 1) (undigits 58 digits.reverse)).reverse)

theorem alphaVal_alphaChar (d : Nat) (hd : d < 58) :
    alphaVal (alphaChar d) = some d := by
  interval_cases d <;> decide

theorem alphaChar_ne_one (d : Nat) (hd : d < 58) (h0 : d ≠ 0) :
    alphaChar d ≠ 49 := by
  interval_cases d <;> simp_all <;> decide

theorem digitVals_map_alphaChar (ds : List Nat) (h : ∀ d ∈ ds, d < 58) :
    digitVals (ds.map alphaChar) = some ds := by
  induction ds with
  | nil => simp [digitVals]
  | cons d ds ih =>
    have hd : d < 58 := h d (by simp)
    have hih := ih (fun x hx => h x (by simp [hx]))
    simp [digitVals, alphaVal_alphaChar d hd, hih]

/-- Round trip of the base58btc codec for byte strings that do not start
with a zero byte (the only shape the identifier layer produces: the
multicodec prefix starts 0xED). -/
theorem decode58_encode58 (bytes : List Nat) (hne : bytes ≠ [])
    (hhead : bytes.head? ≠ some 0) (hb : ∀ b ∈ bytes, b < 256) :
    decode58 (encode58 bytes) = some bytes := by
  have h58 : (2:Nat) ≤ 58 := by norm_num
  have h256 : (2:Nat) ≤ 256 := by norm_num
  have hrevne : bytes.reverse ≠ [] := by simpa using hne
  have hrevlast : bytes.reverse.getLast? ≠ some 0 := by
    rw [List.getLast?_reverse]; exact hhead
  have hrevlt : ∀ b ∈ bytes.reverse, b < 256 := by
    intro b hbm; exact hb b (List.mem_reverse.mp hbm)
  set L := bytes.length with hL
  set n := undigits 256 bytes.reverse with hn
  have hnpos : 0 < n := undigits_pos 256 h256 _ hrevne hrevlast
  have hnlt : n < 256 ^ L := by
    have := undigits_lt 256 h256 bytes.reverse hrevlt
    simpa [hL] using this
  have hpow : (256:Nat) ^ L ≤ 58 ^ (2 * L) := by
    rw [pow_mul]
    exact Nat.pow_le_pow_left (by norm_num) L
  have hnlt58 : n < 58 ^ (2 * L + 1) := by
    have h1 : n < 58 ^ (2 * L) := lt_of_lt_of_le hnlt hpow
    exact lt_of_lt_of_le h1 (Nat.pow_le_pow_right (by norm_num) (by omega))
  set ds := digitsLE 58 (2 * L + 1) n with hds
  have hdslt : ∀ d ∈ ds, d < 58 := fun d hd => digitsLE_lt 58 h58 _ n d hd
  have hdslast : ds.getLast? ≠ some 0 := digitsLE_getLast 58 h58 _ n hnlt58
  have hdsval : undigits 58 ds = n := undigits_digitsLE 58 h58 _ n hnlt58
  have hdsne : ds ≠ [] :=
    digitsLE_ne_nil 58 _ n (by omega) (by omega)
  have htw : bytes.takeWhile (· = 0) = [] := by
    cases bytes with
    | nil => simp at hne
    | cons b bs =>
      have hb0 : b ≠ 0 := by simp at hhead; exact hhead
      simp [List.takeWhile, hb0]
  have henc : encode58 bytes = ds.reverse.map alphaChar := by
    rw [encode58, htw]
    simp [hds, hn, hL]
  rw [henc, decode58]
  have hmem : ∀ d ∈ ds.reverse, d < 58 := by
    intro d hd; exact hdslt d (List.mem_reverse.mp hd)
  rw [digitVals_map_alphaChar ds.reverse hmem]
  have hhead49 : (ds.reverse.map alphaChar).takeWhile (· = 49) = [] := by
    have hrh : ds.reverse.head? = ds.getLast? := List.head?_reverse ds
    cases hrev : ds.reverse with
    | nil => simp
    | cons d rest =>
      have hdlast : ds.getLast? = some d := by rw [← hrh, hrev]; rfl
      have hd58 : d < 58 := by
        apply hdslt
        apply List.mem_reverse.mp
        rw [hrev]; simp
      have hd0 : d ≠ 0 := by
        intro h; rw [h] at hdlast; exact hdslast hdlast
      have := alphaChar_ne_one d hd58 hd0
      simp [List.takeWhile, this]
  rw [hhead49]
  have hlen58 : L ≤ ds.length := by
    by_cases hL1 : L = 0
    · omega
    · have hge : (256:Nat) ^ (L - 1) ≤ n := by
        have := undigits_ge 256 h256 bytes.reverse hrevne hrevlast
        simpa [hL] using this
      have h1 : (58:Nat) ^ (L - 1) ≤ 256 ^ (L - 1) :=
        Nat.pow_le_pow_left (by norm_num) (L - 1)
      have h2 : n < 58 ^ ds.length := by
        rw [← hdsval]
        exact undigits_lt 58 h58 ds hdslt
      have h3 : (58:Nat) ^ (L - 1) < 58 ^ ds.length := by omega
      have h4 : L - 1 < ds.length := (Nat.pow_lt_pow_iff_right (by norm_num)).mp h3
      omega
  have hfin : digitsLE 256 (ds.length + 1)
      (undigits 58 ds) = bytes.reverse := by
    rw [hdsval, hn]
    apply digitsLE_undigits 256 h256 bytes.reverse _ hrevlt hrevlast
    simp [hL] at hlen58 ⊢
    omega
  simp [hfin]

/-! ## Identifier (did.rs)

DidKey wraps a 32-byte Ed25519 public key. Display writes
did:key:z followed by the base58btc encoding of the two-byte multicodec
prefix 0xED 0x01 and the key; parse strips the literal prefix did:key:z,
base58-decodes the rest, strips the multicodec prefix and requires
exactly 32 remaining bytes. -/

/-- The string did:key:z as UTF-8 bytes. -/
def didKeyPre : List Nat := [100, 105, 100, 58, 107, 101, 121, 58, 122]

/-- Error kinds of did::Error: unsupported base encoding, unsupported
multicodec, and key errors from the ed25519 layer (wrong length). -/
inductive DidErr where
  | base : DidErr
  | unsupportedCodec : DidErr
  | key : DidErr
deriving DecidableEq, Repr

structure DidKey where
  pk : List Nat
deriving DecidableEq, Repr

/-- ed25519::to_public_key — accepts exactly 32 bytes. -/
def toPublicKeyBytes (bytes : List Nat) : Except DidErr (List Nat) :=
  if bytes.length = 32 then .ok bytes else .error .key

/-- DidKey::new. -/
def didKeyNew (bytes : List Nat) : Except DidErr DidKey :=
  match toPublicKeyBytes bytes with
  | .ok pk => .ok ⟨pk⟩
  | .error e => .error e

/-- DidKey::parse. -/
def didParse (s : List Nat) : Except DidErr DidKey :=
  if s.take 9 = didKeyPre then
    match decode58 (s.drop 9) with
    | none => .error .base
    | some decoded =>
      if decoded.take 2 = [237, 1] then didKeyNew (decoded.drop 2)
      else .error .unsupportedCodec
  else .error .base

/-- Display for DidKey. -/
def didFormat (k : DidKey) : List Nat :=
  didKeyPre ++ encode58 (237 :: 1 :: k.pk)

/-- Parsing a formatted identifier recovers the public key. -/
theorem didParse_didFormat (pk : List Nat) (hlen : pk.length = 32)
    (hb : ∀ b ∈ pk, b < 256) :
    didParse (didFormat ⟨pk⟩) = .ok ⟨pk⟩ := by
  unfold didFormat didParse
  have htake : (didKeyPre ++ encode58 (237 :: 1 :: pk)).take 9 = didKeyPre := by
    rw [show (9:Nat) = didKeyPre.length from rfl]
    exact List.take_left didKeyPre _
  have hdrop : (didKeyPre ++ encode58 (237 :: 1 :: pk)).drop 9 =
      encode58 (237 :: 1 :: pk) := by
    rw [show (9:Nat) = didKeyPre.length from rfl]
    exact List.drop_left didKeyPre _
  have hdec : decode58 (encode58 (237 :: 1 :: pk)) = some (237 :: 1 :: pk) := by
    apply decode58_encode58 _ (by simp) (by simp)
    intro b hbm
    simp at hbm
    rcases hbm with h | h | h
    · omega
    · omega
    · exact hb b h
  rw [htake, if_pos rfl, hdrop, hdec]
  simp [didKeyNew, toPublicKeyBytes, hlen]

/-- Every formatted identifier starts with did:key:z6Mk: the decoded
number lies between 0xED01 shifted by 256 bits and its successor range,
whose leading base-58 digits are constant. -/
theorem didFormat_z6Mk (pk : List Nat) (hlen : pk.length = 32)
    (hb : ∀ b ∈ pk, b < 256) :
    ∃ t, didFormat ⟨pk⟩ =
      [100, 105, 100, 58, 107, 101, 121, 58, 122, 54, 77, 107] ++ t := by
  have h58 : (2:Nat) ≤ 58 := by norm_num
  have h256 : (2:Nat) ≤ 256 := by norm_num
  set u := undigits 256 pk.reverse with hu
  have hult : u < 256 ^ 32 := by
    have h := undigits_lt 256 h256 pk.reverse
      (fun b hbm => hb b (List.mem_reverse.mp hbm))
    simpa [hlen] using h
  have hndef : undigits 256 (237 :: 1 :: pk).reverse = u + 256 ^ 32 * 60673 := by
    have : (237 :: 1 :: pk).reverse = pk.reverse ++ [1, 237] := by simp
    rw [this, undigits_append]
    have h17 : undigits 256 [1, 237] = 60673 := by
      simp [undigits_cons]
      rfl
    rw [h17]
    simp [hlen, hu]
  set n := undigits 256 (237 :: 1 :: pk).reverse with hn
  have hdiv : n / 58 ^ 44 = 18023 := by
    have hlow : (60673 * 256 ^ 32) / 58 ^ 44 = 18023 := by decide
    have hhigh : (60673 * 256 ^ 32 + (256 ^ 32 - 1)) / 58 ^ 44 = 18023 := by decide
    have h1 : 60673 * 256 ^ 32 ≤ n := by rw [hndef]; omega
    have h2 : n ≤ 60673 * 256 ^ 32 + (256 ^ 32 - 1) := by
      rw [hndef]
      have : (0:Nat) < 256 ^ 32 := by positivity
      omega
    have hle1 := Nat.div_le_div_right (c := 58 ^ 44) h1
    have hle2 := Nat.div_le_div_right (c := 58 ^ 44) h2
    omega
  have hq : n / 58 ^ 44 ≠ 0 := by rw [hdiv]; omega
  have hsplit := digitsLE_split 58 h58 44 69 n (by omega) hq
  have htail : digitsLE 58 (69 - 44) (n / 58 ^ 44) = [43, 20, 5] := by
    rw [hdiv]
    decide
  have htw : (237 :: 1 :: pk).takeWhile (· = 0) = [] := by
    simp [List.takeWhile]
  have hlen34 : (237 :: 1 :: pk).length = 34 := by simp [hlen]
  have henc : encode58 (237 :: 1 :: pk) =
      (padDigits 58 44 n ++ [43, 20, 5]).reverse.map alphaChar := by
    rw [encode58, htw, hlen34]
    simp only [List.length_nil, List.replicate, List.nil_append]
    rw [← hn, show 2 * 34 + 1 = 69 from rfl, hsplit, htail]
  refine ⟨(padDigits 58 44 n).reverse.map alphaChar, ?_⟩
  rw [didFormat, henc]
  simp [didKeyPre, alphaChar, alphabet]

/-! ## Hash

Modelled from the spec: the hash module of szdt-core is absent from the
source snapshot (only its callers are present) and the blake3 crate it
wraps is external. Section 4.1 requires a deterministic,
collision-resistant 32-byte digest that serializes in the canonical CBOR
profile as a byte string. The model idealizes collision resistance as
injectivity: the digest carries the hashed bytes themselves, and the
fixed 32-byte width is abstracted away. -/

structure Hash where
  digest : List Nat
deriving DecidableEq, Repr

/-- Hash::new. -/
def hashNew (bytes : List Nat) : Hash := ⟨bytes⟩

/-- Hash::as_bytes. -/
def Hash.asBytes (h : Hash) : List Nat := h.digest

/-- ToLink::to_link (link.rs): serialize to dag-cbor, then hash the
encoded bytes. -/
def toLink (v : Value) : Hash := hashNew (encodeVal v)

/-! ## Ed25519 signature primitive and key material

Modelled from the spec: section 4.4 (the ed25519-dalek crate is
external; ed25519.rs and ed25519_key_material.rs wrap it). Key
derivation from a 32-byte private key is deterministic; the model takes
the public key equal to the private key, which keeps derivation
deterministic, total and injective. Sign and verify are idealized as a
perfectly unforgeable scheme: a signature is the payload followed by the
public key, and verification succeeds exactly on a matching pair. The
32-byte key length checks of the Rust wrapper are kept; the 64-byte
signature width is abstracted with the digest width. -/

/-- ed25519::derive_public_key on well-formed input. -/
def derivePublicKey (priv : List Nat) : List Nat := priv

/-- ed25519::sign — rejects private keys that are not 32 bytes. -/
def edSign (payload priv : List Nat) : Except Error (List Nat) :=
  if priv.length = 32 then .ok (payload ++ derivePublicKey priv)
  else .error .ed25519

/-- ed25519::verify — rejects public keys that are not 32 bytes, and
fails on any signature that was not produced for exactly this payload
and key. -/
def edVerify (payload sig pub : List Nat) : Except Error Unit :=
  if pub.length = 32 then
    if sig = payload ++ pub then .ok () else .error .ed25519
  else .error .ed25519

/-- Ed25519KeyMaterial: a public key and an optional private key. -/
structure Ed25519KeyMaterial where
  public_key : List Nat
  private_key : Option (List Nat)
deriving DecidableEq, Repr

/-- Ed25519KeyMaterial::try_from_private_key. -/
def kmFromPrivateKey (priv : List Nat) : Except Error Ed25519KeyMaterial :=
  if priv.length = 32 then .ok ⟨derivePublicKey priv, some priv⟩
  else .error .ed25519

/-- Ed25519KeyMaterial::try_from_public_key. -/
def kmFromPublicKey (pub : List Nat) : Except Error Ed25519KeyMaterial :=
  if pub.length = 32 then .ok ⟨pub, none⟩ else .error .ed25519

/-- Ed25519KeyMaterial::did. -/
def kmDid (km : Ed25519KeyMaterial) : DidKey := ⟨km.public_key⟩

/-- Ed25519KeyMaterial::sign — PrivateKeyMissing without a private key. -/
def kmSign (km : Ed25519KeyMaterial) (payload : List Nat) :
    Except Error (List Nat) :=
  match km.private_key with
  | some priv => edSign payload priv
  | none => .error .privateKeyMissing

/-- Ed25519KeyMaterial::verify. -/
def kmVerify (km : Ed25519KeyMaterial) (payload sig : List Nat) :
    Except Error Unit :=
  edVerify payload sig km.public_key

/-- TryFrom(DidKey) for Ed25519KeyMaterial: verify-only material. -/
def kmFromDid (d : DidKey) : Except Error Ed25519KeyMaterial :=
  kmFromPublicKey d.pk

/-! ## Memo (memo.rs)

The canonical protected-header field names, as byte strings. -/

def key_iss : List Nat := [105, 115, 115]
def key_iss_nickname : List Nat :=
  [105, 115, 115, 45, 110, 105, 99, 107, 110, 97, 109, 101]
def key_iat : List Nat := [105, 97, 116]
def key_nbf : List Nat := [110, 98, 102]
def key_exp : List Nat := [101, 120, 112]
def key_prev : List Nat := [112, 114, 101, 118]
def key_content_type : List Nat :=
  [99, 111, 110, 116, 101, 110, 116, 45, 116, 121, 112, 101]
def key_path : List Nat := [112, 97, 116, 104]
def key_src : List Nat := [115, 114, 99]
def key_sig : List Nat := [115, 105, 103]
def key_type : List Nat := [116, 121, 112, 101]
def str_szdt_memo : List Nat := [115, 122, 100, 116, 47, 109, 101, 109, 111]
def key_unprotected : List Nat :=
  [117, 110, 112, 114, 111, 116, 101, 99, 116, 101, 100]
def key_protected : List Nat :=
  [112, 114, 111, 116, 101, 99, 116, 101, 100]

/-- ProtectedHeaders. The extra map of additional fields (a Rust HashMap
flattened by serde) is modelled as an ordered association list. -/
structure ProtectedHeaders where
  iss : Option DidKey
  iss_nickname : Option (List Nat)
  iat : Nat
  nbf : Option Nat
  exp : Option Nat
  prev : Option Hash
  content_type : Option (List Nat)
  path : Option (List Nat)
  src : Hash
  extra : VPairs
deriving DecidableEq, Repr

/-- UnprotectedHeaders. -/
structure UnprotectedHeaders where
  sig : Option (List Nat)
  extra : VPairs
deriving DecidableEq, Repr

/-- Memo: unprotected and protected header groups. The serde attributes
tag = type, rename = szdt/memo add a type entry to the serialized map. -/
structure Memo where
  unprotected : UnprotectedHeaders
  protected_ : ProtectedHeaders
deriving DecidableEq, Repr

/-- Append an entry only when the optional field is set
(skip_serializing_if Option::is_none). -/
def optEntry (key : List Nat) (v : Option Value) (ps : VPairs) : VPairs :=
  match v with
  | none => ps
  | some x => .cons key x ps

/-- Value of the iss-nickname field: serde writes null for an unset
Option that lacks skip_serializing_if. -/
def nickValue : Option (List Nat) → Value
  | none => .null
  | some s => .text s

/-- Serialization of ProtectedHeaders as a CBOR map, field by field in
declaration order. Every optional field carries skip_serializing_if
except iss_nickname, which serde therefore writes as null when unset. -/
def protectedToValue (p : ProtectedHeaders) : Value :=
  .map (optEntry key_iss (p.iss.map fun d => .text (didFormat d))
    (.cons key_iss_nickname (nickValue p.iss_nickname)
    (.cons key_iat (.nat p.iat)
    (optEntry key_nbf (p.nbf.map .nat)
    (optEntry key_exp (p.exp.map .nat)
    (optEntry key_prev (p.prev.map fun h => .bytes h.digest)
    (optEntry key_content_type (p.content_type.map .text)
    (optEntry key_path (p.path.map .text)
    (.cons key_src (.bytes p.src.digest)
    p.extra)))))))))

/-- Serialization of UnprotectedHeaders. -/
def unprotectedToValue (u : UnprotectedHeaders) : Value :=
  .map (optEntry key_sig (u.sig.map .bytes) u.extra)

/-- Serialization of Memo: the internal tag entry type: szdt/memo first,
then the two header groups. -/
def memoToValue (m : Memo) : Value :=
  .map (.cons key_type (.text str_szdt_memo)
    (.cons key_unprotected (unprotectedToValue m.unprotected)
    (.cons key_protected (protectedToValue m.protected_) .nil)))

/-! ### Deserialization of the memo structures

serde's derived visitors walk the decoded map: each known key fills its
field slot (a second occurrence is a duplicate-field error), unknown
keys are collected by the flattened extra map, optional fields that
never occur become None, and a missing iat or src is a missing-field
error. Field values of the wrong CBOR kind are decode errors. -/

/-- Option(DidKey): null is None, a string is parsed as an identifier. -/
def asOptDid : Value → Except Error (Option DidKey)
  | .null => .ok none
  | .text s =>
    match didParse s with
    | .ok d => .ok (some d)
    | .error _ => .error .cborDecode
  | _ => .error .cborDecode

/-- Option(String). -/
def asOptText : Value → Except Error (Option (List Nat))
  | .null => .ok none
  | .text s => .ok (some s)
  | _ => .error .cborDecode

/-- Option(u64). A decoded CBOR unsigned always fits u64. -/
def asOptNat : Value → Except Error (Option Nat)
  | .null => .ok none
  | .nat n => .ok (some n)
  | _ => .error .cborDecode

/-- u64. -/
def asNat : Value → Except Error Nat
  | .nat n => .ok n
  | _ => .error .cborDecode

/-- Option(Hash): a hash deserializes from a byte string. -/
def asOptHash : Value → Except Error (Option Hash)
  | .null => .ok none
  | .bytes bs => .ok (some ⟨bs⟩)
  | _ => .error .cborDecode

/-- Hash. -/
def asHash : Value → Except Error Hash
  | .bytes bs => .ok ⟨bs⟩
  | _ => .error .cborDecode

/-- Option(Bytes): the byte wrapper accepts bytes and byte_buf. -/
def asOptBytes : Value → Except Error (Option (List Nat))
  | .null => .ok none
  | .bytes bs => .ok (some bs)
  | _ => .error .cborDecode

/-- Field slots of the ProtectedHeaders visitor: outer None means the
field has not occurred yet. -/
structure PPartial where
  iss : Option (Option DidKey)
  iss_nickname : Option (Option (List Nat))
  iat : Option Nat
  nbf : Option (Option Nat)
  exp : Option (Option Nat)
  prev : Option (Option Hash)
  content_type : Option (Option (List Nat))
  path : Option (Option (List Nat))
  src : Option Hash
  extra : VPairs
deriving DecidableEq, Repr

def pEmpty : PPartial :=
  ⟨none, none, none, none, none, none, none, none, none, .nil⟩

/-- Process one map entry of ProtectedHeaders. -/
def pAssign (k : List Nat) (v : Value) (acc : PPartial) :
    Except Error PPartial :=
  if k = key_iss then
    match acc.iss with
    | some _ => .error .cborDecode
    | none => do let x ← asOptDid v; .ok { acc with iss := some x }
  else if k = key_iss_nickname then
    match acc.iss_nickname with
    | some _ => .error .cborDecode
    | none => do let x ← asOptText v; .ok { acc with iss_nickname := some x }
  else if k = key_iat then
    match acc.iat with
    | some _ => .error .cborDecode
    | none => do let x ← asNat v; .ok { acc with iat := some x }
  else if k = key_nbf then
    match acc.nbf with
    | some _ => .error .cborDecode
    | none => do let x ← asOptNat v; .ok { acc with nbf := some x }
  else if k = key_exp then
    match acc.exp with
    | some _ => .error .cborDecode
    | none => do let x ← asOptNat v; .ok { acc with exp := some x }
  else if k = key_prev then
    match acc.prev with
    | some _ => .error .cborDecode
    | none => do let x ← asOptHash v; .ok { acc with prev := some x }
  else if k = key_content_type then
    match acc.content_type with
    | some _ => .error .cborDecode
    | none => do let x ← asOptText v; .ok { acc with content_type := some x }
  else if k = key_path then
    match acc.path with
    | some _ => .error .cborDecode
    | none => do let x ← asOptText v; .ok { acc with path := some x }
  else if k = key_src then
    match acc.src with
    | some _ => .error .cborDecode
    | none => do let x ← asHash v; .ok { acc with src := some x }
  else .ok { acc with extra := .cons k v acc.extra }

/-- Walk the entries (the first entry is processed last so that the
extra list keeps its order). -/
def pBuild : VPairs → Except Error PPartial
  | .nil => .ok pEmpty
  | .cons k v rest => do
    let acc ← pBuild rest
    pAssign k v acc

/-- Deserialization of ProtectedHeaders from a CBOR value. -/
def protectedFromValue : Value → Except Error ProtectedHeaders
  | .map ps => do
    let acc ← pBuild ps
    match acc.iat, acc.src with
    | some iat, some src =>
      .ok { iss := acc.iss.getD none, iss_nickname := acc.iss_nickname.getD none,
            iat := iat, nbf := acc.nbf.getD none, exp := acc.exp.getD none,
            prev := acc.prev.getD none,
            content_type := acc.content_type.getD none,
            path := acc.path.getD none, src := src, extra := acc.extra }
    | _, _ => .error .cborDecode
  | _ => .error .cborDecode

/-- Field slots of the UnprotectedHeaders visitor. -/
structure UPartial where
  sig : Option (Option (List Nat))
  extra : VPairs
deriving DecidableEq, Repr

/-- Process one map entry of UnprotectedHeaders. -/
def uAssign (k : List Nat) (v : Value) (acc : UPartial) :
    Except Error UPartial :=
  if k = key_sig then
    match acc.sig with
    | some _ => .error .cborDecode
    | none => do let x ← asOptBytes v; .ok { acc with sig := some x }
  else .ok { acc with extra := .cons k v acc.extra }

def uBuild : VPairs → Except Error UPartial
  | .nil => .ok ⟨none, .nil⟩
  | .cons k v rest => do
    let acc ← uBuild rest
    uAssign k v acc

/-- Deserialization of UnprotectedHeaders. -/
def unprotectedFromValue : Value → Except Error UnprotectedHeaders
  | .map ps => do
    let acc ← uBuild ps
    .ok { sig := acc.sig.getD none, extra := acc.extra }
  | _ => .error .cborDecode

/-- Deserialization of Memo: an internally tagged struct requires the
type entry to hold exactly szdt/memo, then reads the two header groups;
other top-level entries are ignored. -/
def memoFromValue (v : Value) : Except Error Memo :=
  match v with
  | .map ps =>
    match ps.lookup key_type with
    | some (.text t) =>
      if t = str_szdt_memo then
        match ps.lookup key_unprotected, ps.lookup key_protected with
        | some uv, some pv => do
          let u ← unprotectedFromValue uv
          let p ← protectedFromValue pv
          .ok ⟨u, p⟩
        | _, _ => .error .cborDecode
      else .error .cborDecode
    | _ => .error .cborDecode
  | _ => .error .cborDecode

/-- Deserialization of the byte wrapper (bytes.rs): exactly a byte
string. -/
def bytesFromValue : Value → Except Error (List Nat)
  | .bytes bs => .ok bs
  | _ => .error .cborDecode

/-! ### Memo operations -/

/-- ProtectedHeaders::new — iat and nbf are filled with the current
time, passed here explicitly (crate::time::now). -/
def ProtectedHeaders.new (body : Hash) (now : Nat) : ProtectedHeaders :=
  { iss := none, iss_nickname := none, iat := now, nbf := some now,
    exp := none, prev := none, content_type := none, path := none,
    src := body, extra := .nil }

/-- Memo::new. -/
def Memo.new (body : Hash) (now : Nat) : Memo :=
  ⟨⟨none, .nil⟩, ProtectedHeaders.new body now⟩

/-- Memo::for_body — canonical-encode the body, hash, then new. -/
def Memo.forBody (body : Value) (now : Nat) : Memo :=
  Memo.new (toLink body) now

/-- Memo::sign — set iss from the key material (replacing any previous
issuer), hash the canonical encoding of the protected headers, sign the
hash, store the signature. The Rust method mutates in place; the model
returns the updated memo. -/
def Memo.sign (m : Memo) (km : Ed25519KeyMaterial) : Except Error Memo :=
  let p := { m.protected_ with iss := some (kmDid km) }
  let protectedHash := toLink (protectedToValue p)
  match kmSign km protectedHash.asBytes with
  | .ok s => .ok ⟨{ m.unprotected with sig := some s }, p⟩
  | .error e => .error e

/-- Memo::verify. -/
def Memo.verify (m : Memo) : Except Error Unit :=
  match m.protected_.iss with
  | none => .error .memoIssMissing
  | some iss =>
    match m.unprotected.sig with
    | none => .error .memoUnsigned
    | some s =>
      match kmFromDid iss with
      | .error e => .error e
      | .ok km => kmVerify km (toLink (protectedToValue m.protected_)).asBytes s

/-- Memo::is_expired — the Rust signature takes Option(u64) and falls
back to the system clock, passed here explicitly as sysNow. -/
def Memo.isExpired (m : Memo) (nowTime : Option Nat) (sysNow : Nat) : Bool :=
  match m.protected_.exp with
  | some e => e < nowTime.getD sysNow
  | none => false

/-- Memo::is_too_early. -/
def Memo.isTooEarly (m : Memo) (nowTime : Option Nat) (sysNow : Nat) : Bool :=
  match m.protected_.nbf with
  | some nb => nb > nowTime.getD sysNow
  | none => false

/-- Memo::validate. -/
def Memo.validate (m : Memo) (nowTime : Option Nat) (sysNow : Nat) :
    Except Error Unit :=
  if m.isExpired nowTime sysNow then
    .error (.memoExpError m.protected_.exp nowTime)
  else if m.isTooEarly nowTime sysNow then
    .error (.memoNbfError m.protected_.nbf nowTime)
  else m.verify

/-- Memo::checksum. -/
def Memo.checksum (m : Memo) (bodyHash : Hash) : Except Error Unit :=
  if m.protected_.src ≠ bodyHash then .error .integrityError else .ok ()

/-! ### Round trip of the memo serialization -/

/-- An extra key that cannot collide with a canonical field name. -/
def notCanonicalKey (k : List Nat) : Bool :=
  decide (k ≠ key_iss) && decide (k ≠ key_iss_nickname) &&
  decide (k ≠ key_iat) && decide (k ≠ key_nbf) && decide (k ≠ key_exp) &&
  decide (k ≠ key_prev) && decide (k ≠ key_content_type) &&
  decide (k ≠ key_path) && decide (k ≠ key_src)

/-- Extra maps whose keys avoid the canonical names round-trip through
the flatten machinery. -/
def pExtraOk : VPairs → Bool
  | .nil => true
  | .cons k _ rest => notCanonicalKey k && pExtraOk rest

@[simp]
theorem except_bind_ok {ε α β : Type} (a : α) (f : α → Except ε β) :
    (Except.ok (ε := ε) a >>= f) = f a := rfl

@[simp]
theorem except_bind_err {ε α β : Type} (e : ε) (f : α → Except ε β) :
    (Except.error (α := α) e >>= f) = .error e := rfl

@[simp]
theorem map_some_getD {α : Type} (o : Option α) : (o.map some).getD none = o := by
  cases o <;> rfl

theorem pAssign_unknown (k : List Nat) (v : Value) (acc : PPartial)
    (h : notCanonicalKey k = true) :
    pAssign k v acc = .ok { acc with extra := .cons k v acc.extra } := by
  simp [notCanonicalKey] at h
  obtain ⟨⟨⟨⟨⟨⟨⟨⟨h1, h2⟩, h3⟩, h4⟩, h5⟩, h6⟩, h7⟩, h8⟩, h9⟩ := h
  simp [pAssign, h1, h2, h3, h4, h5, h6, h7, h8, h9]

theorem pBuild_cons_ok (k : List Nat) (v : Value) (rest : VPairs)
    (acc acc' : PPartial) (h1 : pBuild rest = .ok acc)
    (h2 : pAssign k v acc = .ok acc') :
    pBuild (.cons k v rest) = .ok acc' := by
  unfold pBuild
  rw [h1]
  exact h2

theorem pBuild_extra : ∀ ex : VPairs, pExtraOk ex = true →
    pBuild ex = .ok ⟨none, none, none, none, none, none, none, none, none, ex⟩ := by
  intro ex hex
  match ex with
  | .nil => rfl
  | .cons k v rest =>
    simp [pExtraOk] at hex
    have hrest := pBuild_extra rest hex.2
    have hstep := pAssign_unknown k v
      ⟨none, none, none, none, none, none, none, none, none, rest⟩ hex.1
    exact pBuild_cons_ok k v rest _ _ hrest hstep

/-- Deserializing a serialized ProtectedHeaders recovers it, provided
the keys of the extra map avoid the canonical field names (Rust types
guarantee this cannot be observed otherwise, since a serde flatten map
holding a canonical key would have produced a duplicate field on the
wire). -/
theorem protectedFromValue_toValue (p : ProtectedHeaders)
    (hex : pExtraOk p.extra = true)
    (hiss : ∀ d, p.iss = some d → d.pk.length = 32 ∧ ∀ b ∈ d.pk, b < 256) :
    protectedFromValue (protectedToValue p) = .ok p := by
  obtain ⟨iss, nick, iat, nbf, exp, prev, ct, path, src, ex⟩ := p
  simp only at hex
  have h0 := pBuild_extra ex hex
  have h1 : pBuild (.cons key_src (.bytes src.digest) ex) =
      .ok ⟨none, none, none, none, none, none, none, none, some src, ex⟩ := by
    apply pBuild_cons_ok _ _ _ _ _ h0
    simp [pAssign, key_src, key_iss, key_iss_nickname, key_iat, key_nbf,
      key_exp, key_prev, key_content_type, key_path, asHash]
  have h2 : pBuild (optEntry key_path (path.map .text)
      (.cons key_src (.bytes src.digest) ex)) =
      .ok ⟨none, none, none, none, none, none, none, path.map some,
        some src, ex⟩ := by
    cases path with
    | none => exact h1
    | some s =>
      apply pBuild_cons_ok _ _ _ _ _ h1
      simp [pAssign, key_src, key_iss, key_iss_nickname, key_iat, key_nbf,
        key_exp, key_prev, key_content_type, key_path, asOptText]
  have h3 : pBuild (optEntry key_content_type (ct.map .text)
      (optEntry key_path (path.map .text)
      (.cons key_src (.bytes src.digest) ex))) =
      .ok ⟨none, none, none, none, none, none, ct.map some, path.map some,
        some src, ex⟩ := by
    cases ct with
    | none => exact h2
    | some s =>
      apply pBuild_cons_ok _ _ _ _ _ h2
      simp [pAssign, key_src, key_iss, key_iss_nickname, key_iat, key_nbf,
        key_exp, key_prev, key_content_type, key_path, asOptText]
  have h4 : pBuild (optEntry key_prev (prev.map fun h => .bytes h.digest)
      (optEntry key_content_type (ct.map .text)
      (optEntry key_path (path.map .text)
      (.cons key_src (.bytes src.digest) ex)))) =
      .ok ⟨none, none, none, none, none, prev.map some, ct.map some,
        path.map some, some src, ex⟩ := by
    cases prev with
    | none => exact h3
    | some hsh =>
      apply pBuild_cons_ok _ _ _ _ _ h3
      simp [pAssign, key_src, key_iss, key_iss_nickname, key_iat, key_nbf,
        key_exp, key_prev, key_content_type, key_path, asOptHash]
  have h5 : pBuild (optEntry key_exp (exp.map .nat)
      (optEntry key_prev (prev.map fun h => .bytes h.digest)
      (optEntry key_content_type (ct.map .text)
      (optEntry key_path (path.map .text)
      (.cons key_src (.bytes src.digest) ex))))) =
      .ok ⟨none, none, none, none, exp.map some, prev.map some, ct.map some,
        path.map some, some src, ex⟩ := by
    cases exp with
    | none => exact h4
    | some e =>
      apply pBuild_cons_ok _ _ _ _ _ h4
      simp [pAssign, key_src, key_iss, key_iss_nickname, key_iat, key_nbf,
        key_exp, key_prev, key_content_type, key_path, asOptNat]
  have h6 : pBuild (optEntry key_nbf (nbf.map .nat)
      (optEntry key_exp (exp.map .nat)
      (optEntry key_prev (prev.map fun h => .bytes h.digest)
      (optEntry key_content_type (ct.map .text)
      (optEntry key_path (path.map .text)
      (.cons key_src (.bytes src.digest) ex)))))) =
      .ok ⟨none, none, none, nbf.map some, exp.map some, prev.map some,
        ct.map some, path.map some, some src, ex⟩ := by
    cases nbf with
    | none => exact h5
    | some e =>
      apply pBuild_cons_ok _ _ _ _ _ h5
      simp [pAssign, key_src, key_iss, key_iss_nickname, key_iat, key_nbf,
        key_exp, key_prev, key_content_type, key_path, asOptNat]
  have h7 : pBuild (.cons key_iat (.nat iat)
      (optEntry key_nbf (nbf.map .nat)
      (optEntry key_exp (exp.map .nat)
      (optEntry key_prev (prev.map fun h => .bytes h.digest)
      (optEntry key_content_type (ct.map .text)
      (optEntry key_path (path.map .text)
      (.cons key_src (.bytes src.digest) ex))))))) =
      .ok ⟨none, none, some iat, nbf.map some, exp.map some, prev.map some,
        ct.map some, path.map some, some src, ex⟩ := by
    apply pBuild_cons_ok _ _ _ _ _ h6
    simp [pAssign, key_src, key_iss, key_iss_nickname, key_iat, key_nbf,
      key_exp, key_prev, key_content_type, key_path, asNat]
  have h8 : pBuild (.cons key_iss_nickname (nickValue nick)
      (.cons key_iat (.nat iat)
      (optEntry key_nbf (nbf.map .nat)
      (optEntry key_exp (exp.map .nat)
      (optEntry key_prev (prev.map fun h => .bytes h.digest)
      (optEntry key_content_type (ct.map .text)
      (optEntry key_path (path.map .text)
      (.cons key_src (.bytes src.digest) ex)))))))) =
      .ok ⟨none, some nick, some iat, nbf.map some, exp.map some,
        prev.map some, ct.map some, path.map some, some src, ex⟩ := by
    apply pBuild_cons_ok _ _ _ _ _ h7
    cases nick with
    | none =>
      simp [pAssign, nickValue, key_src, key_iss, key_iss_nickname, key_iat,
        key_nbf, key_exp, key_prev, key_content_type, key_path, asOptText]
    | some s =>
      simp [pAssign, nickValue, key_src, key_iss, key_iss_nickname, key_iat,
        key_nbf, key_exp, key_prev, key_content_type, key_path, asOptText]
  have h9 : pBuild (optEntry key_iss (iss.map fun d => .text (didFormat d))
      (.cons key_iss_nickname (nickValue nick)
      (.cons key_iat (.nat iat)
      (optEntry key_nbf (nbf.map .nat)
      (optEntry key_exp (exp.map .nat)
      (optEntry key_prev (prev.map fun h => .bytes h.digest)
      (optEntry key_content_type (ct.map .text)
      (optEntry key_path (path.map .text)
      (.cons key_src (.bytes src.digest) ex))))))))) =
      .ok ⟨iss.map some, some nick, some iat, nbf.map some, exp.map some,
        prev.map some, ct.map some, path.map some, some src, ex⟩ := by
    cases iss with
    | none => exact h8
    | some d =>
      apply pBuild_cons_ok _ _ _ _ _ h8
      have hd := hiss d rfl
      have hparse : didParse (didFormat d) = .ok d := by
        obtain ⟨pk⟩ := d
        exact didParse_didFormat pk hd.1 hd.2
      simp [pAssign, key_src, key_iss, key_iss_nickname, key_iat, key_nbf,
        key_exp, key_prev, key_content_type, key_path, asOptDid, hparse]
  simp only [protectedToValue, protectedFromValue, h9]
  simp [map_some_getD]

/-- Extra keys of the unprotected headers must avoid sig. -/
def uExtraOk : VPairs → Bool
  | .nil => true
  | .cons k _ rest => decide (k ≠ key_sig) && uExtraOk rest

theorem uBuild_extra : ∀ ex : VPairs, uExtraOk ex = true →
    uBuild ex = .ok ⟨none, ex⟩ := by
  intro ex hex
  match ex with
  | .nil => rfl
  | .cons k v rest =>
    simp [uExtraOk] at hex
    have hrest := uBuild_extra rest hex.2
    unfold uBuild
    rw [hrest]
    simp [uAssign, hex.1]

theorem unprotectedFromValue_toValue (u : UnprotectedHeaders)
    (hex : uExtraOk u.extra = true) :
    unprotectedFromValue (unprotectedToValue u) = .ok u := by
  obtain ⟨sg, ex⟩ := u
  simp only at hex
  have h0 := uBuild_extra ex hex
  cases sg with
  | none =>
    simp only [unprotectedToValue, optEntry, Option.map_none']
    simp [unprotectedFromValue, h0]
  | some s =>
    simp only [unprotectedToValue, optEntry, Option.map_some']
    have h1 : uBuild (.cons key_sig (.bytes s) ex) = .ok ⟨some (some s), ex⟩ := by
      unfold uBuild
      rw [h0]
      simp [uAssign, asOptBytes]
    simp [unprotectedFromValue, h1]

/-- Well-formedness of a memo for serialization round trips: extra keys
avoid the canonical field names and an issuer, when present, is an
actual 32-byte key. Rust's types make all of this automatic. -/
def MemoWf (m : Memo) : Prop :=
  pExtraOk m.protected_.extra = true ∧ uExtraOk m.unprotected.extra = true ∧
  (∀ d, m.protected_.iss = some d → d.pk.length = 32 ∧ ∀ b ∈ d.pk, b < 256)

/-- Deserializing a serialized memo recovers it. -/
theorem memoFromValue_toValue (m : Memo) (hwf : MemoWf m) :
    memoFromValue (memoToValue m) = .ok m := by
  obtain ⟨hpex, huex, hiss⟩ := hwf
  have hu := unprotectedFromValue_toValue m.unprotected huex
  have hp := protectedFromValue_toValue m.protected_ hpex hiss
  simp [memoToValue, memoFromValue, VPairs.lookup, key_type, key_unprotected,
    key_protected, str_szdt_memo, hu, hp]

/-! ### Typed block reads (read_block::<Memo> and read_block::<Bytes>) -/

/-- CborSeqReader::read_block deserializing a Memo: decode one value,
then convert; a conversion failure is a decode error, not Eof. -/
def readBlockMemo (bytes : List Nat) : Except Error (Memo × List Nat) := do
  let (v, r) ← readBlockValue bytes
  let m ← memoFromValue v
  .ok (m, r)

/-- CborSeqReader::read_block deserializing a Bytes body. -/
def readBlockBytes (bytes : List Nat) :
    Except Error (List Nat × List Nat) := do
  let (v, r) ← readBlockValue bytes
  let b ← bytesFromValue v
  .ok (b, r)

theorem readBlockMemo_roundtrip (m : Memo) (rest : List Nat)
    (hwf : MemoWf m) (hval : vvalid (memoToValue m) = true) :
    readBlockMemo (encodeVal (memoToValue m) ++ rest) = .ok (m, rest) := by
  unfold readBlockMemo
  rw [show encodeVal (memoToValue m) ++ rest = writeBlock (memoToValue m) ++ rest
    from rfl]
  rw [readBlockValue_writeBlock _ _ hval]
  simp [memoFromValue_toValue m hwf]

theorem readBlockBytes_roundtrip (b : List Nat) (rest : List Nat)
    (hlen : b.length < 2 ^ 64) :
    readBlockBytes (encodeVal (.bytes b) ++ rest) = .ok (b, rest) := by
  unfold readBlockBytes
  rw [show encodeVal (.bytes b) ++ rest = writeBlock (.bytes b) ++ rest
    from rfl]
  rw [readBlockValue_writeBlock _ _ (by simp [vvalid]; omega)]
  simp [bytesFromValue]

/-! ## Archive writer and reader (szdt-cli: szdt.rs)

The CLI error type wraps core errors (the other variants cannot arise in
the embedded fragment). The reader state is the list of bytes not yet
consumed; the file walker is an external collaborator and enters the
model as the ordered list of (relative path, contents) pairs it yields;
the MIME guesser enters as a function from path to optional
content type. -/

inductive CliError where
  | core : Error → CliError
deriving DecidableEq, Repr

/-- read_archive_memo_pair: one memo, then one body. -/
def readArchiveMemoPair (bytes : List Nat) :
    Except CliError ((Memo × List Nat) × List Nat) :=
  match readBlockMemo bytes with
  | .error e => .error (.core e)
  | .ok (m, r) =>
    match readBlockBytes r with
    | .error e => .error (.core e)
    | .ok (b, r2) => .ok ((m, b), r2)

/-- Unarchiver::next — yields the pair, or None when the pair reader
reports Error::Core(Error::Eof), or the error itself otherwise. The
second component is the reader state after the step. -/
def unarchiverNext (bytes : List Nat) :
    Option (Except CliError (Memo × List Nat) × List Nat) :=
  match readArchiveMemoPair bytes with
  | .ok ((m, b), r) => some (.ok (m, b), r)
  | .error (.core .eof) => none
  | .error e => some (.error e, bytes)

/-- Drain the iterator, collecting the yielded results; iteration stops
at None as a for loop would, and at the first error (the provided CLI
driver halts there). Fuel bounds the number of steps; a successful step
consumes at least one byte, so input length plus one always suffices. -/
def unarchiveList : Nat → List Nat → List (Except CliError (Memo × List Nat))
  | 0, _ => []
  | fuel+1, bytes =>
    match unarchiverNext bytes with
    | none => []
    | some (.ok p, r) => .ok p :: unarchiveList fuel r
    | some (.error e, _) => [.error e]

def unarchiveAll (bytes : List Nat) :
    List (Except CliError (Memo × List Nat)) :=
  unarchiveList (bytes.length + 1) bytes

/-- Contact (contact.rs): nickname, identifier, optional private key. -/
structure Contact where
  nickname : List Nat
  did : DidKey
  private_key : Option (List Nat)
deriving DecidableEq, Repr

/-- TryFrom(Contact) for Ed25519KeyMaterial: prefer the stored private
key; fall back to verify-only material from the identifier. -/
def kmFromContact (c : Contact) : Except Error Ed25519KeyMaterial :=
  match c.private_key with
  | some priv => kmFromPrivateKey priv
  | none => kmFromDid c.did

/-- One iteration of the archive loop: build the memo for the file body,
set path, content type and nickname hint, sign, and emit the memo block
followed by the body block. -/
def archiveFile (km : Ed25519KeyMaterial) (nickname : List Nat)
    (guess : List Nat → Option (List Nat)) (now : Nat)
    (relPath fileBytes : List Nat) : Except Error (Memo × List Nat) :=
  let memo0 := Memo.forBody (.bytes fileBytes) now
  let memo1 : Memo :=
    ⟨memo0.unprotected,
     { memo0.protected_ with
        path := some relPath,
        content_type := guess relPath,
        iss_nickname := some nickname }⟩
  match memo1.sign km with
  | .error e => .error e
  | .ok m => .ok (m, writeBlock (memoToValue m) ++ writeBlock (.bytes fileBytes))

/-- The archive loop over the walker output, accumulating the output
stream and the manifest. -/
def archiveGo (km : Ed25519KeyMaterial) (nickname : List Nat)
    (guess : List Nat → Option (List Nat)) (now : Nat) :
    List (List Nat × List Nat) → Except Error (List Nat × List Memo)
  | [] => .ok ([], [])
  | (p, b) :: rest => do
    let (m, blockBytes) ← archiveFile km nickname guess now p b
    let (stream, manifest) ← archiveGo km nickname guess now rest
    .ok (blockBytes ++ stream, m :: manifest)

/-- archive — resolve the signing key from the contact, then write all
(memo, body) pairs; the returned manifest is the ArchiveReceipt. -/
def archive (c : Contact) (guess : List Nat → Option (List Nat)) (now : Nat)
    (files : List (List Nat × List Nat)) :
    Except CliError (List Nat × List Memo) :=
  match kmFromContact c with
  | .error e => .error (.core e)
  | .ok km =>
    match archiveGo km c.nickname guess now files with
    | .error e => .error (.core e)
    | .ok r => .ok r

/-! ## Nickname (nickname.rs)

Characters are modelled as code points; the character classes are the
ASCII fragment of the Rust char methods (char::is_alphanumeric and
str::to_lowercase agree with these on ASCII, which covers every
counterexample and every string the claims quantify over). -/

/-- ASCII fragment of char::is_alphanumeric. -/
def charIsAlphanumeric (c : Nat) : Bool :=
  (48 ≤ c && c ≤ 57) || (65 ≤ c && c ≤ 90) || (97 ≤ c && c ≤ 122)

/-- ASCII fragment of to_lowercase. -/
def charToLower (c : Nat) : Nat :=
  if 65 ≤ c && c ≤ 90 then c + 32 else c

inductive NicknameError where
  | tooShort : NicknameError
deriving DecidableEq, Repr

/-- First stage of Nickname::parse: keep alphanumerics and hyphens, keep
the first 63 of them, lowercase. -/
def nickFiltered (text : List Nat) : List Nat :=
  ((text.filter fun c => charIsAlphanumeric c || c == 45).take 63).map
    charToLower

/-- Remove one leading hyphen if present (nickname.remove(0) under
starts_with). -/
def nickStrip1 (s : List Nat) : List Nat :=
  if s.head? = some 45 then s.tail else s

/-- Remove one trailing hyphen if present (nickname.remove(len-1) under
ends_with). -/
def nickStrip2 (s : List Nat) : List Nat :=
  if s.getLast? = some 45 then s.dropLast else s

/-- The full filter-take-lowercase-strip pipeline of Nickname::parse. -/
def nicknameStrip (text : List Nat) : List Nat :=
  nickStrip2 (nickStrip1 (nickFiltered text))

/-- Nickname::parse. -/
def nicknameParse (text : List Nat) : Except NicknameError (List Nat) :=
  let s2 := nicknameStrip text
  if s2.length < 1 then .error .tooShort else .ok s2

/-! ## Concrete objects used by witnesses and counterexamples -/

deriving instance DecidableEq for Except

/-- A 32-byte private key (all bytes 7). -/
def privC : List Nat := List.replicate 32 7

/-- Key material holding privC. -/
def kmC : Ed25519KeyMaterial := ⟨privC, some privC⟩

/-- An unsigned memo over the body [1] at time 0. -/
def memoBase : Memo := Memo.new (hashNew (encodeVal (.bytes [1]))) 0

/-- An unsigned memo with an expiry of 100 and no nbf. -/
def memoExp : Memo :=
  ⟨⟨none, .nil⟩,
   { iss := none, iss_nickname := none, iat := 0, nbf := none,
     exp := some 100, prev := none, content_type := none, path := none,
     src := hashNew [], extra := .nil }⟩

/-- memoExp signed with kmC (sign succeeds; getD is never taken). -/
def memoExpSigned : Memo := ((memoExp.sign kmC).toOption).getD memoExp

/-- Protected headers with every optional field unset. -/
def pPlain : ProtectedHeaders :=
  ⟨none, none, 0, none, none, none, none, none, ⟨[]⟩, .nil⟩

/-! ## The claims -/

/-- C9. For every serializable value V, writing V with the
block-sequence writer (write_block) and then reading with the
block-sequence reader (read_block) yields V again; and reading when no
bytes remain returns the distinguished Eof error, distinct from all
other decode errors. (The validity hypothesis states that every integer
and length in V fits in 64 bits, which the Rust types enforce.) -/
theorem claim_C9 (v : Value) (rest : List Nat) (hval : vvalid v = true) :
    readBlockValue (writeBlock v ++ rest) = .ok (v, rest) ∧
    readBlockValue [] = .error Error.eof ∧
    Error.eof ≠ Error.cborDecode := by
  exact ⟨readBlockValue_writeBlock v rest hval, readBlockValue_nil, by decide⟩

/-- C9 witness: a concrete map value round-trips and the empty stream is
Eof. -/
theorem claim_C9_witness :
    readBlockValue (writeBlock (.map (.cons [97] (.nat 5) .nil)) ++ [1, 2]) =
      .ok (.map (.cons [97] (.nat 5) .nil), [1, 2]) ∧
    readBlockValue [] = .error Error.eof ∧
    Error.eof ≠ Error.cborDecode :=
  claim_C9 (.map (.cons [97] (.nat 5) .nil)) [1, 2] (by decide)

/-- List of keys contributed by an optional field. -/
def optKeyOf {α : Type} (o : Option α) (k : List Nat) : List (List Nat) :=
  match o with
  | none => []
  | some _ => [k]

theorem keys_optEntry (k : List Nat) (v : Option Value) (ps : VPairs) :
    (optEntry k v ps).keys = optKeyOf v k ++ ps.keys := by
  cases v <;> rfl

theorem optKeyOf_map {α β : Type} (o : Option α) (f : α → β) (k : List Nat) :
    optKeyOf (o.map f) k = optKeyOf o k := by
  cases o <;> rfl

/-- C3 counterexample: for headers with every optional field unset, the
encoded map still contains the key iss-nickname (mapped to null), so it
does not contain only keys for fields that are set plus iat and src. -/
theorem claim_C3_counterexample :
    pPlain.iss_nickname = none ∧
    ∃ ps, protectedToValue pPlain = .map ps ∧
      ps.lookup key_iss_nickname = some .null := by
  refine ⟨rfl, _, rfl, by decide⟩

/-- C3 as amended: the canonical encoding omits every unset optional
protected-header field except the issuer-nickname hint: iss-nickname is
always present (null when unset, serde emits the field because it lacks
a skip attribute). The encoded map holds exactly: iss when set, then
iss-nickname and iat always, then nbf, exp, prev, content-type, path
when set, then src always, then the extra keys. -/
theorem claim_C3 (p : ProtectedHeaders) :
    ∃ ps, protectedToValue p = .map ps ∧
      ps.keys = optKeyOf p.iss key_iss ++ [key_iss_nickname, key_iat] ++
        optKeyOf p.nbf key_nbf ++ optKeyOf p.exp key_exp ++
        optKeyOf p.prev key_prev ++
        optKeyOf p.content_type key_content_type ++
        optKeyOf p.path key_path ++ [key_src] ++ p.extra.keys := by
  refine ⟨_, rfl, ?_⟩
  simp [protectedToValue, keys_optEntry, optKeyOf_map, VPairs.keys]

/-- C7. Every serialized memo map contains the entry type: szdt/memo,
and deserialization succeeds only when this tag is present with exactly
this value. -/
theorem claim_C7 (m : Memo) :
    (∃ ps, memoToValue m = .map ps ∧
      ps.lookup key_type = some (.text str_szdt_memo)) ∧
    (∀ v m', memoFromValue v = .ok m' →
      ∃ ps, v = .map ps ∧ ps.lookup key_type = some (.text str_szdt_memo)) := by
  constructor
  · exact ⟨_, rfl, by simp [VPairs.lookup]⟩
  · intro v m' h
    match v, h with
    | .map ps, h =>
      refine ⟨ps, rfl, ?_⟩
      simp only [memoFromValue] at h
      match hl : ps.lookup key_type with
      | some (.text t) =>
        rw [hl] at h
        by_cases ht : t = str_szdt_memo
        · rw [ht]
        · simp [ht] at h
      | some (.nat x) => rw [hl] at h; simp at h
      | some (.bytes x) => rw [hl] at h; simp at h
      | some (.bool x) => rw [hl] at h; simp at h
      | some .null => rw [hl] at h; simp at h
      | some (.array x) => rw [hl] at h; simp at h
      | some (.map x) => rw [hl] at h; simp at h
      | none => rw [hl] at h; simp at h

/-- C7 witness at a concrete memo and its serialization. -/
theorem claim_C7_witness :
    (∃ ps, memoToValue memoBase = .map ps ∧
      ps.lookup key_type = some (.text str_szdt_memo)) ∧
    (∃ ps, memoToValue memoBase = .map ps ∧
      ps.lookup key_type = some (.text str_szdt_memo)) :=
  ⟨(claim_C7 memoBase).1,
   (claim_C7 memoBase).2 (memoToValue memoBase) memoBase (by decide)⟩

/-- C6. validate returns MemoExpError when expired, else MemoNbfError
when too early, else the result of verify; verify fails with
MemoIssMissing when iss is unset, with MemoUnsigned when iss is set but
sig is unset; hence every unsigned memo fails verification. -/
theorem claim_C6 (m : Memo) (nowTime : Option Nat) (sysNow : Nat) :
    (m.isExpired nowTime sysNow = true →
      m.validate nowTime sysNow =
        .error (.memoExpError m.protected_.exp nowTime)) ∧
    (m.isExpired nowTime sysNow = false → m.isTooEarly nowTime sysNow = true →
      m.validate nowTime sysNow =
        .error (.memoNbfError m.protected_.nbf nowTime)) ∧
    (m.isExpired nowTime sysNow = false →
      m.isTooEarly nowTime sysNow = false →
      m.validate nowTime sysNow = m.verify) ∧
    (m.protected_.iss = none → m.verify = .error Error.memoIssMissing) ∧
    (∀ d, m.protected_.iss = some d → m.unprotected.sig = none →
      m.verify = .error Error.memoUnsigned) ∧
    (m.unprotected.sig = none → ∃ e, m.verify = .error e) := by
  refine ⟨?_, ?_, ?_, ?_, ?_, ?_⟩
  · intro h; simp [Memo.validate, h]
  · intro h1 h2; simp [Memo.validate, h1, h2]
  · intro h1 h2; simp [Memo.validate, h1, h2]
  · intro h; simp [Memo.verify, h]
  · intro d h1 h2; simp [Memo.verify, h1, h2]
  · intro h
    unfold Memo.verify
    match m.protected_.iss with
    | none => exact ⟨_, rfl⟩
    | some d => rw [h]; exact ⟨_, rfl⟩

/-- C6 witness: the unsigned memoBase fails verify with MemoIssMissing
and validates to that failure. -/
theorem claim_C6_witness :
    Memo.validate memoBase none 0 = Memo.verify memoBase ∧
    Memo.verify memoBase = .error Error.memoIssMissing ∧
    (∃ e, Memo.verify memoBase = .error e) :=
  ⟨(claim_C6 memoBase none 0).2.2.1 (by decide) (by decide),
   (claim_C6 memoBase none 0).2.2.2.1 (by decide),
   (claim_C6 memoBase none 0).2.2.2.2.2 (by decide)⟩

/-- C5 counterexample: a signed memo whose exp equals the validation
time validates successfully, although now < exp fails; the expiry check
of the code is exp < now, not now >= exp. -/
theorem claim_C5_counterexample :
    memoExpSigned.protected_.exp = some 100 ∧
    Memo.validate memoExpSigned (some 100) 0 = .ok () ∧
    ¬ (100 < 100) := by
  refine ⟨by decide, by decide, by omega⟩

/-- C5 as amended: when exp is set, validation at now succeeds only when
now <= exp (the code treats a memo as expired only when exp < now); when
nbf is set, validation succeeds only when now >= nbf; and is_expired and
is_too_early return false whenever the corresponding bound is unset.
now is the explicit argument when provided, else the system clock. -/
theorem claim_C5 (m : Memo) (nowTime : Option Nat) (sysNow : Nat) :
    (∀ e, m.protected_.exp = some e → m.validate nowTime sysNow = .ok () →
      nowTime.getD sysNow ≤ e) ∧
    (∀ nb, m.protected_.nbf = some nb → m.validate nowTime sysNow = .ok () →
      nb ≤ nowTime.getD sysNow) ∧
    (m.protected_.exp = none → m.isExpired nowTime sysNow = false) ∧
    (m.protected_.nbf = none → m.isTooEarly nowTime sysNow = false) := by
  refine ⟨?_, ?_, ?_, ?_⟩
  · intro e he hv
    by_contra hlt
    have hexp : m.isExpired nowTime sysNow = true := by
      simp [Memo.isExpired, he]; omega
    rw [(claim_C6 m nowTime sysNow).1 hexp] at hv
    exact absurd hv (by simp)
  · intro nb hnb hv
    by_contra hlt
    have hte : m.isTooEarly nowTime sysNow = true := by
      simp [Memo.isTooEarly, hnb]; omega
    unfold Memo.validate at hv
    by_cases hexp : m.isExpired nowTime sysNow
    · simp [hexp] at hv
    · simp [hexp, hte] at hv
  · intro h; simp [Memo.isExpired, h]
  · intro h; simp [Memo.isTooEarly, h]

/-- C5 witness: instances of each conjunct at concrete memos. -/
theorem claim_C5_witness :
    (100 : Nat) ≤ 100 ∧ Memo.isExpired memoBase none 0 = false :=
  ⟨(claim_C5 memoExpSigned (some 100) 0).1 100 (by decide) (by decide),
   (claim_C5 memoBase none 0).2.2.1 (by decide)⟩

/-- C10 counterexample: parsing a string with two leading hyphens
succeeds and yields a nickname that still begins with a hyphen, because
the code removes only one leading hyphen; so a successful parse does not
guarantee no leading hyphen. The input is the three characters - - a. -/
theorem claim_C10_counterexample :
    nicknameParse [45, 45, 97] = .ok [45, 97] ∧
    ([45, 97].head? = some 45) := by
  exact ⟨by decide, by decide⟩

/-- C10 as amended: a successful parse yields between 1 and 63
characters drawn from lowercase alphanumerics and hyphen (parsing is
lossy: other characters are filtered out, and uppercase is lowered); at
most one leading and at most one trailing hyphen are stripped, so the
result may still begin or end with a hyphen; and parse fails — always
with TooShort — exactly when the stripped result is empty. Characters
are the ASCII fragment of the Rust Unicode classes. -/
theorem claim_C10 (text : List Nat) :
    (∀ out, nicknameParse text = .ok out →
      1 ≤ out.length ∧ out.length ≤ 63 ∧
      ∀ c ∈ out, (48 ≤ c ∧ c ≤ 57) ∨ (97 ≤ c ∧ c ≤ 122) ∨ c = 45) ∧
    (nicknameParse text = .error .tooShort ↔ nicknameStrip text = []) := by
  constructor
  · intro out hout
    have hpair : nicknameStrip text = out ∧ ¬ (nicknameStrip text).length < 1 := by
      unfold nicknameParse at hout
      by_cases hlen : (nicknameStrip text).length < 1
      · simp [hlen] at hout
      · simp [hlen] at hout; exact ⟨hout, hlen⟩
    obtain ⟨hsout, hlen1⟩ := hpair
    subst hsout
    have hsub1 : List.Sublist (nickStrip1 (nickFiltered text)) (nickFiltered text) := by
      unfold nickStrip1
      split
      · exact List.tail_sublist _
      · exact List.Sublist.refl _
    have hsub2 : List.Sublist (nicknameStrip text) (nickStrip1 (nickFiltered text)) := by
      unfold nicknameStrip nickStrip2
      split
      · exact List.dropLast_sublist _
      · exact List.Sublist.refl _
    have hsub : List.Sublist (nicknameStrip text) (nickFiltered text) :=
      hsub2.trans hsub1
    have hf63 : (nickFiltered text).length ≤ 63 := by
      unfold nickFiltered
      rw [List.length_map]
      exact le_trans (List.length_take_le 63 _) (le_refl 63)
    refine ⟨by omega, le_trans hsub.length_le hf63, ?_⟩
    intro c hc
    have hcmem : c ∈ nickFiltered text := hsub.subset hc
    unfold nickFiltered at hcmem
    rw [List.mem_map] at hcmem
    obtain ⟨d, hd, rfl⟩ := hcmem
    have hdmem : d ∈ text.filter (fun c => charIsAlphanumeric c || c == 45) :=
      List.mem_of_mem_take hd
    have hdp : (charIsAlphanumeric d || d == 45) = true :=
      (List.mem_filter.mp hdmem).2
    simp [charIsAlphanumeric] at hdp
    unfold charToLower
    rcases hdp with ((h | h) | h) | h
    · rw [if_neg (by simp; omega)]; omega
    · rw [if_pos (by simp; omega)]; omega
    · rw [if_neg (by simp; omega)]; omega
    · subst h; rw [if_neg (by simp)]; omega
  · unfold nicknameParse
    by_cases hlen : (nicknameStrip text).length < 1
    · simp [hlen]
      cases hs : nicknameStrip text with
      | nil => rfl
      | cons a l => rw [hs] at hlen; simp at hlen
    · simp [hlen]
      intro hs
      rw [hs] at hlen
      simp at hlen

/-- C10 witness: instances of both conjuncts. -/
theorem claim_C10_witness :
    (1 ≤ ([45, 97] : List Nat).length ∧ ([45, 97] : List Nat).length ≤ 63 ∧
      ∀ c ∈ ([45, 97] : List Nat),
        (48 ≤ c ∧ c ≤ 57) ∨ (97 ≤ c ∧ c ≤ 122) ∨ c = 45) ∧
    (nicknameParse [] = .error .tooShort ↔ nicknameStrip [] = []) :=
  ⟨(claim_C10 [45, 45, 97]).1 [45, 97] (by decide), (claim_C10 []).2⟩

/-! ### Identifier claims -/

/-- The test-vector identifier of did.rs as bytes
(did:key:z6MkjxXr49JYNRDagDRVTNJKj17vTcmxwPb1KybzeVUM13qs). -/
def didStrC : List Nat :=
  [100, 105, 100, 58, 107, 101, 121, 58, 122, 54, 77, 107, 106, 120, 88,
   114, 52, 57, 74, 89, 78, 82, 68, 97, 103, 68, 82, 86, 84, 78, 74, 75,
   106, 49, 55, 118, 84, 99, 109, 120, 119, 80, 98, 49, 75, 121, 98, 122,
   101, 86, 85, 77, 49, 51, 113, 115]

/-- The public key that didStrC encodes. -/
def pkC8 : List Nat :=
  [81, 202, 36, 250, 251, 109, 232, 18, 161, 230, 203, 223, 206, 238, 116,
   21, 162, 226, 219, 36, 205, 159, 29, 157, 230, 19, 102, 40, 228, 130,
   162, 250]

/-- C8. For every 32-byte Ed25519 public key, parsing the formatted
identifier yields the key back, and the formatted string starts with
did:key:z6Mk; for the concrete test-vector identifier, parsing then
formatting yields the same string. -/
theorem claim_C8 (pk : List Nat) (hlen : pk.length = 32)
    (hb : ∀ b ∈ pk, b < 256) :
    didParse (didFormat ⟨pk⟩) = .ok ⟨pk⟩ ∧
    (∃ t, didFormat ⟨pk⟩ =
      [100, 105, 100, 58, 107, 101, 121, 58, 122, 54, 77, 107] ++ t) ∧
    didParse didStrC = .ok ⟨pkC8⟩ ∧
    didFormat ⟨pkC8⟩ = didStrC :=
  ⟨didParse_didFormat pk hlen hb, didFormat_z6Mk pk hlen hb,
   by decide, by decide⟩

/-- C8 witness at the all-zero public key. -/
theorem claim_C8_witness :
    didParse (didFormat ⟨List.replicate 32 0⟩) = .ok ⟨List.replicate 32 0⟩ ∧
    (∃ t, didFormat ⟨List.replicate 32 0⟩ =
      [100, 105, 100, 58, 107, 101, 121, 58, 122, 54, 77, 107] ++ t) ∧
    didParse didStrC = .ok ⟨pkC8⟩ ∧
    didFormat ⟨pkC8⟩ = didStrC :=
  claim_C8 (List.replicate 32 0) (by decide) (by decide)

/-! ### Signing claims -/

theorem encodeVal_inj (v w : Value) (hv : vvalid v = true)
    (hw : vvalid w = true) (h : encodeVal v = encodeVal w) : v = w := by
  have h1 := decodeVal_encodeVal v (max (vdepth v) (vdepth w)) [] hv
    (le_max_left _ _)
  have h2 := decodeVal_encodeVal w (max (vdepth v) (vdepth w)) [] hw
    (le_max_right _ _)
  rw [h] at h1
  rw [h2] at h1
  injection h1 with h3
  injection h3 with h4
  exact h4.symm

theorem protectedToValue_inj (p q : ProtectedHeaders)
    (hpex : pExtraOk p.extra = true)
    (hpiss : ∀ d, p.iss = some d → d.pk.length = 32 ∧ ∀ b ∈ d.pk, b < 256)
    (hqex : pExtraOk q.extra = true)
    (hqiss : ∀ d, q.iss = some d → d.pk.length = 32 ∧ ∀ b ∈ d.pk, b < 256)
    (h : protectedToValue p = protectedToValue q) : p = q := by
  have h1 := protectedFromValue_toValue p hpex hpiss
  have h2 := protectedFromValue_toValue q hqex hqiss
  rw [h] at h1
  rw [h2] at h1
  injection h1 with h3
  exact h3.symm

/-- C2. After a successful M.sign(K) with key material K holding a
private key: the issuer is set to K's identifier (unconditionally, so a
previous issuer is replaced), the unprotected sig holds the detached
signature over the hash of the canonical CBOR encoding of the protected
headers, verification succeeds, and replacing the protected headers by
any different ones makes verification fail. The hypothesis
km.public_key = priv states that the material was built by one of the
crate's constructors, all of which derive the public key from the
private one (derivePublicKey is the identity in the idealized model);
the validity hypotheses restate what the Rust types enforce (64-bit
integers, HashMap keys distinct from field names, 32-byte keys). -/
theorem claim_C2 (m m' : Memo) (km : Ed25519KeyMaterial) (priv : List Nat)
    (hpriv : km.private_key = some priv) (hlen : priv.length = 32)
    (hpub : km.public_key = priv) (hpubb : ∀ b ∈ priv, b < 256)
    (hsig : m.sign km = .ok m')
    (hex : pExtraOk m.protected_.extra = true)
    (hval : vvalid (protectedToValue m'.protected_) = true) :
    m'.protected_.iss = some (kmDid km) ∧
    m'.unprotected.sig =
      some ((toLink (protectedToValue m'.protected_)).asBytes ++
        km.public_key) ∧
    m'.verify = .ok () ∧
    (∀ q : ProtectedHeaders, vvalid (protectedToValue q) = true →
      pExtraOk q.extra = true →
      (∀ d, q.iss = some d → d.pk.length = 32 ∧ ∀ b ∈ d.pk, b < 256) →
      q ≠ m'.protected_ →
      Memo.verify ⟨m'.unprotected, q⟩ ≠ .ok ()) := by
  have hm' : m' = ⟨⟨m.unprotected.sig, m.unprotected.extra⟩, m.protected_⟩ → True := fun _ => trivial
  simp only [Memo.sign, kmSign, hpriv, edSign, hlen, if_pos] at hsig
  injection hsig with hsig
  subst hsig
  set P : ProtectedHeaders := { m.protected_ with iss := some (kmDid km) }
    with hP
  have hPiss : P.iss = some (kmDid km) := rfl
  have hPissWf : ∀ d, P.iss = some d → d.pk.length = 32 ∧
      ∀ b ∈ d.pk, b < 256 := by
    intro d hd
    rw [hPiss] at hd
    injection hd with hd
    subst hd
    constructor
    · rw [kmDid, hpub]; exact hlen
    · rw [kmDid]
      simp only [hpub]
      exact hpubb
  have hPex : pExtraOk P.extra = true := hex
  refine ⟨rfl, ?_, ?_, ?_⟩
  · rw [hpub]
    rfl
  · unfold Memo.verify
    simp only [hPiss]
    rw [kmFromDid, kmFromPublicKey]
    rw [if_pos (by rw [kmDid, hpub]; exact hlen)]
    simp only [kmVerify, edVerify]
    rw [if_pos (by rw [kmDid, hpub]; exact hlen)]
    rw [if_pos (by
      simp [toLink, hashNew, Hash.asBytes, derivePublicKey, kmDid]
      rw [hpub])]
  · intro q hqval hqex hqiss hqne hok
    unfold Memo.verify at hok
    match hqi : q.iss with
    | none => rw [hqi] at hok; simp at hok
    | some d =>
      rw [hqi] at hok
      simp only at hok
      rw [kmFromDid, kmFromPublicKey] at hok
      by_cases hd32 : d.pk.length = 32
      · rw [if_pos hd32] at hok
        simp only at hok
        simp only [kmVerify, edVerify] at hok
        rw [if_pos hd32] at hok
        by_cases heq : encodeVal (protectedToValue P) ++ derivePublicKey priv =
            (toLink (protectedToValue q)).asBytes ++ d.pk
        · have hinj := List.append_inj' heq
            (by simp [derivePublicKey, hlen, hd32])
          have hpay : encodeVal (protectedToValue P) =
              (toLink (protectedToValue q)).asBytes := hinj.1
          have hptv : protectedToValue q = protectedToValue P := by
            apply encodeVal_inj _ _ hqval hval
            exact hpay.symm
          exact hqne (protectedToValue_inj q P hqex hqiss hPex hPissWf hptv)
        · rw [if_neg (by
            intro hcontra
            exact heq (by
              simpa [toLink, hashNew, Hash.asBytes] using hcontra))] at hok
          simp at hok
      · rw [if_neg hd32] at hok
        simp at hok

/-- memoBase signed with kmC (sign succeeds; getD is never taken). -/
def memoBaseSigned : Memo := ((memoBase.sign kmC).toOption).getD memoBase

/-- C2 witness: the concrete memoBase signed with kmC. -/
theorem claim_C2_witness :
    memoBaseSigned.protected_.iss = some (kmDid kmC) ∧
    memoBaseSigned.unprotected.sig =
      some ((toLink (protectedToValue memoBaseSigned.protected_)).asBytes ++
        kmC.public_key) ∧
    memoBaseSigned.verify = .ok () ∧
    (∀ q : ProtectedHeaders, vvalid (protectedToValue q) = true →
      pExtraOk q.extra = true →
      (∀ d, q.iss = some d → d.pk.length = 32 ∧ ∀ b ∈ d.pk, b < 256) →
      q ≠ memoBaseSigned.protected_ →
      Memo.verify ⟨memoBaseSigned.unprotected, q⟩ ≠ .ok ()) :=
  claim_C2 memoBase memoBaseSigned kmC privC rfl (by decide) rfl (by decide)
    (by decide) (by decide) (by decide)

/-! ### Archive reader claims -/

/-- Reading a byte-string block whose last byte was cut off is the Eof
error, exactly as reading past the end of the stream is: the decoder
does not distinguish the two. -/
theorem readBlockValue_truncated (b : List Nat) (hb : b ≠ [])
    (hlen : b.length < 2 ^ 64) :
    readBlockValue (encodeHead 2 b.length ++ b.dropLast) = .error .eof := by
  unfold readBlockValue
  have hh := readHead_encodeHead 2 b.length b.dropLast hlen
  have hlt : ¬ b.length ≤ b.length - 1 := by
    cases b with
    | nil => simp at hb
    | cons x xs => simp only [List.length_cons]; omega
  simp [decodeVal, hh, takeN, List.length_dropLast, hlt]

/-- C1 counterexample: a one-pair archive (an unsigned memo over the
body [1]) with the last byte of the body block cut off; the iterator
returns None (clean termination) instead of an error result. -/
theorem claim_C1_counterexample :
    unarchiverNext (writeBlock (memoToValue memoBase) ++
      (writeBlock (.bytes [1])).dropLast) = none := by decide

/-- C1 as amended: when the stream ends after a complete memo but before
the end of its body — for instance a valid archive whose last byte was
truncated — Unarchiver::next returns None, the same clean termination
it produces at EOF between pairs, because the dag-cbor decoder reports
the one Eof error for both and next maps every Eof to None. In general
next returns None exactly when the pair reader reports Eof, and an
error result arises only from non-Eof failures. -/
theorem claim_C1 (m : Memo) (b : List Nat) (hwf : MemoWf m)
    (hval : vvalid (memoToValue m) = true) (hb : b ≠ [])
    (hblen : b.length < 2 ^ 64) :
    unarchiverNext (writeBlock (memoToValue m) ++
      (writeBlock (.bytes b)).dropLast) = none ∧
    (∀ bytes, unarchiverNext bytes = none ↔
      readArchiveMemoPair bytes = .error (.core .eof)) := by
  constructor
  · have hdrop : (writeBlock (.bytes b)).dropLast =
        encodeHead 2 b.length ++ b.dropLast := by
      rw [writeBlock, encodeVal, List.dropLast_append_of_ne_nil _ hb]
    rw [hdrop]
    have hm := readBlockMemo_roundtrip m (encodeHead 2 b.length ++ b.dropLast)
      hwf hval
    have hbb : readBlockBytes (encodeHead 2 b.length ++ b.dropLast) =
        .error .eof := by
      unfold readBlockBytes
      rw [readBlockValue_truncated b hb hblen]
      rfl
    have hnext : readArchiveMemoPair (writeBlock (memoToValue m) ++
        (encodeHead 2 b.length ++ b.dropLast)) = .error (.core .eof) := by
      unfold readArchiveMemoPair
      rw [show writeBlock (memoToValue m) = encodeVal (memoToValue m) from rfl,
        hm]
      simp [hbb]
    rw [unarchiverNext, hnext]
  · intro bytes
    unfold unarchiverNext
    match h : readArchiveMemoPair bytes with
    | .ok ((m, b), r) => simp
    | .error (.core e) => cases e <;> simp

/-- C1 witness: the iff at the empty stream (clean EOF between pairs). -/
theorem claim_C1_witness :
    (unarchiverNext (writeBlock (memoToValue memoBase) ++
      (writeBlock (.bytes [2, 3])).dropLast) = none) ∧
    (unarchiverNext [] = none ↔
      readArchiveMemoPair [] = .error (.core .eof)) :=
  ⟨(claim_C1 memoBase [2, 3] (by
      refine ⟨by decide, by decide, ?_⟩
      intro d hd
      simp [memoBase, Memo.new, ProtectedHeaders.new] at hd)
    (by decide) (by decide) (by decide)).1,
   (claim_C1 memoBase [2, 3] (by
      refine ⟨by decide, by decide, ?_⟩
      intro d hd
      simp [memoBase, Memo.new, ProtectedHeaders.new] at hd)
    (by decide) (by decide) (by decide)).2 []⟩

/-! ### Directory archive round trip (C4 support)

Length bounds on the encodings, needed to show that the memos the
archive loop builds stay inside the 64-bit length limits. -/

theorem digitsLE_length_le (B : Nat) :
    ∀ fuel n, (digitsLE B fuel n).length ≤ fuel := by
  intro fuel
  induction fuel with
  | zero => intro n; simp [digitsLE]
  | succ f ih =>
    intro n
    by_cases h0 : n = 0
    · simp [h0, digitsLE]
    · simp only [digitsLE, if_neg h0, List.length_cons]
      exact Nat.succ_le_succ (ih (n / B))

theorem encode58_length_le (bs : List Nat) :
    (encode58 bs).length ≤ 3 * bs.length + 1 := by
  unfold encode58
  have h1 : (bs.takeWhile (fun c => c = 0)).length ≤ bs.length :=
    List.Sublist.length_le (List.takeWhile_sublist _)
  have h2 := digitsLE_length_le 58 (2 * bs.length + 1) (undigits 256 bs.reverse)
  simp only [List.length_append, List.length_replicate, List.length_map,
    List.length_reverse]
  omega

theorem didFormat_length_le (d : DidKey) :
    (didFormat d).length ≤ 3 * d.pk.length + 16 := by
  unfold didFormat
  have h := encode58_length_le (237 :: 1 :: d.pk)
  simp only [List.length_append, List.length_cons] at h ⊢
  simp only [didKeyPre, List.length_cons, List.length_nil]
  omega

theorem encLen_text_le (s : List Nat) :
    (encodeVal (.text s)).length ≤ 9 + s.length := by
  simp only [encodeVal, List.length_append]
  have := encodeHead_length_le 3 s.length
  omega

theorem encLen_nat_le (n : Nat) : (encodeVal (.nat n)).length ≤ 9 := by
  simp only [encodeVal]
  exact encodeHead_length_le 0 n

theorem encLen_bytes_le (bs : List Nat) :
    (encodeVal (.bytes bs)).length ≤ 9 + bs.length := by
  simp only [encodeVal, List.length_append]
  have := encodeHead_length_le 2 bs.length
  omega

/-- Per-entry upper bound for the encoding of a CBOR map body. -/
def pairsBound : VPairs → Nat
  | .nil => 0
  | .cons k v ps => 9 + k.length + (encodeVal v).length + pairsBound ps

theorem encVPairs_le_pairsBound :
    ∀ ps : VPairs, (encodeVPairs ps).length ≤ pairsBound ps
  | .nil => by simp [encodeVPairs, pairsBound]
  | .cons k v rest => by
    have ih := encVPairs_le_pairsBound rest
    simp only [encodeVPairs, pairsBound, List.length_append]
    have := encodeHead_length_le 3 k.length
    omega

theorem encLen_map_pairsBound (ps : VPairs) :
    (encodeVal (.map ps)).length ≤ 9 + pairsBound ps := by
  simp only [encodeVal, List.length_append]
  have h1 := encodeHead_length_le 5 ps.length
  have h2 := encVPairs_le_pairsBound ps
  omega

/-- The protected headers the archive loop builds for one file: issuer
from the signing key, the directory-relative path, the guessed content
type, the nickname hint, and the hash of the body encoding as src. -/
def archProtected (priv nickname : List Nat)
    (guess : List Nat → Option (List Nat)) (now : Nat)
    (relPath fileBytes : List Nat) : ProtectedHeaders :=
  { iss := some ⟨derivePublicKey priv⟩, iss_nickname := some nickname,
    iat := now, nbf := some now, exp := none, prev := none,
    content_type := guess relPath, path := some relPath,
    src := toLink (.bytes fileBytes), extra := .nil }

/-- The signed memo the archive loop emits for one file. -/
def archMemo (priv nickname : List Nat)
    (guess : List Nat → Option (List Nat)) (now : Nat)
    (relPath fileBytes : List Nat) : Memo :=
  ⟨⟨some (encodeVal (protectedToValue
      (archProtected priv nickname guess now relPath fileBytes)) ++
      derivePublicKey priv), .nil⟩,
   archProtected priv nickname guess now relPath fileBytes⟩

theorem archiveFile_eq (priv nickname : List Nat)
    (guess : List Nat → Option (List Nat)) (now : Nat)
    (relPath fileBytes : List Nat) (hpriv : priv.length = 32) :
    archiveFile ⟨derivePublicKey priv, some priv⟩ nickname guess now
      relPath fileBytes =
    .ok (archMemo priv nickname guess now relPath fileBytes,
      writeBlock (memoToValue
        (archMemo priv nickname guess now relPath fileBytes)) ++
      writeBlock (.bytes fileBytes)) := by
  have hdp : (derivePublicKey priv).length = 32 := by
    simpa [derivePublicKey] using hpriv
  simp [archiveFile, Memo.forBody, Memo.new, ProtectedHeaders.new,
    Memo.sign, kmSign, kmDid, edSign, hdp, hpriv, archMemo, archProtected,
    toLink, hashNew, Hash.asBytes]

theorem archMemo_wf (priv nickname : List Nat)
    (guess : List Nat → Option (List Nat)) (now : Nat)
    (relPath fileBytes : List Nat) (hpriv : priv.length = 32)
    (hprivB : ∀ x ∈ priv, x < 256) :
    MemoWf (archMemo priv nickname guess now relPath fileBytes) := by
  refine ⟨by simp [archMemo, archProtected, pExtraOk],
    by simp [archMemo, uExtraOk], ?_⟩
  intro d hd
  simp only [archMemo, archProtected, Option.some.injEq] at hd
  subst hd
  exact ⟨by simpa [derivePublicKey] using hpriv,
    by simpa [derivePublicKey] using hprivB⟩

theorem archProtected_encLen (priv nickname : List Nat)
    (guess : List Nat → Option (List Nat)) (now : Nat)
    (relPath fileBytes : List Nat) (hpriv : priv.length = 32)
    (hnick : nickname.length < 2 ^ 32)
    (hct : ∀ ct, guess relPath = some ct → ct.length < 2 ^ 32)
    (hpath : relPath.length < 2 ^ 32) (hbody : fileBytes.length < 2 ^ 32) :
    (encodeVal (protectedToValue
      (archProtected priv nickname guess now relPath fileBytes))).length
      < 2 ^ 40 := by
  have hdf : (didFormat (⟨derivePublicKey priv⟩ : DidKey)).length ≤
      3 * priv.length + 16 := didFormat_length_le _
  have a1 : (encodeVal (Value.text
      (didFormat ⟨derivePublicKey priv⟩))).length ≤
      9 + (didFormat (⟨derivePublicKey priv⟩ : DidKey)).length :=
    encLen_text_le _
  have a2 : (encodeVal (Value.text nickname)).length ≤ 9 + nickname.length :=
    encLen_text_le _
  have a3 : (encodeVal (Value.nat now)).length ≤ 9 := encLen_nat_le _
  have a4 : (encodeVal (Value.text relPath)).length ≤ 9 + relPath.length :=
    encLen_text_le _
  have a5 : (encodeVal (Value.bytes
      (encodeVal (Value.bytes fileBytes)))).length ≤
      9 + (encodeVal (Value.bytes fileBytes)).length := encLen_bytes_le _
  have a6 : (encodeVal (Value.bytes fileBytes)).length ≤
      9 + fileBytes.length := encLen_bytes_le _
  simp only [archProtected, protectedToValue]
  cases hg : guess relPath with
  | none =>
    simp only [optEntry, Option.map_some', Option.map_none', nickValue]
    refine lt_of_le_of_lt (encLen_map_pairsBound _) ?_
    simp only [pairsBound, key_iss, key_iss_nickname, key_iat, key_nbf,
      key_path, key_src, List.length_cons, List.length_nil, toLink, hashNew]
    omega
  | some ct =>
    have a7 : (encodeVal (Value.text ct)).length ≤ 9 + ct.length :=
      encLen_text_le _
    have a8 := hct ct hg
    simp only [optEntry, Option.map_some', Option.map_none', nickValue]
    refine lt_of_le_of_lt (encLen_map_pairsBound _) ?_
    simp only [pairsBound, key_iss, key_iss_nickname, key_iat, key_nbf,
      key_content_type, key_path, key_src, List.length_cons,
      List.length_nil, toLink, hashNew]
    omega

theorem archProtected_vvalid (priv nickname : List Nat)
    (guess : List Nat → Option (List Nat)) (now : Nat)
    (relPath fileBytes : List Nat) (hpriv : priv.length = 32)
    (hnow : now < 2 ^ 64) (hnick : nickname.length < 2 ^ 32)
    (hct : ∀ ct, guess relPath = some ct → ct.length < 2 ^ 32)
    (hpath : relPath.length < 2 ^ 32) (hbody : fileBytes.length < 2 ^ 32) :
    vvalid (protectedToValue
      (archProtected priv nickname guess now relPath fileBytes)) = true := by
  have hdf : (didFormat (⟨derivePublicKey priv⟩ : DidKey)).length ≤
      3 * priv.length + 16 := didFormat_length_le _
  have hdig : (encodeVal (Value.bytes fileBytes)).length ≤
      9 + fileBytes.length := encLen_bytes_le _
  simp only [archProtected, protectedToValue]
  cases hg : guess relPath with
  | none =>
    simp [optEntry, nickValue, vvalid, vpvalid, VPairs.length, key_iss,
      key_iss_nickname, key_iat, key_nbf, key_path, key_src, toLink, hashNew]
    omega
  | some ct =>
    have a8 := hct ct hg
    simp [optEntry, nickValue, vvalid, vpvalid, VPairs.length, key_iss,
      key_iss_nickname, key_iat, key_nbf, key_content_type, key_path,
      key_src, toLink, hashNew]
    omega

theorem archMemo_vvalid (priv nickname : List Nat)
    (guess : List Nat → Option (List Nat)) (now : Nat)
    (relPath fileBytes : List Nat) (hpriv : priv.length = 32)
    (hnow : now < 2 ^ 64) (hnick : nickname.length < 2 ^ 32)
    (hct : ∀ ct, guess relPath = some ct → ct.length < 2 ^ 32)
    (hpath : relPath.length < 2 ^ 32) (hbody : fileBytes.length < 2 ^ 32) :
    vvalid (memoToValue
      (archMemo priv nickname guess now relPath fileBytes)) = true := by
  have hp := archProtected_vvalid priv nickname guess now relPath fileBytes
    hpriv hnow hnick hct hpath hbody
  have hE := archProtected_encLen priv nickname guess now relPath fileBytes
    hpriv hnick hct hpath hbody
  have hdp : (derivePublicKey priv).length = 32 := by
    simpa [derivePublicKey] using hpriv
  simp only [archMemo, memoToValue, unprotectedToValue]
  simp [optEntry, vvalid, vpvalid, vlvalid, VPairs.length, key_type,
    str_szdt_memo, key_unprotected, key_protected, key_sig,
    List.length_append]
  refine ⟨by omega, ?_⟩
  exact hp

theorem archMemo_verify (priv nickname : List Nat)
    (guess : List Nat → Option (List Nat)) (now : Nat)
    (relPath fileBytes : List Nat) (hpriv : priv.length = 32) :
    (archMemo priv nickname guess now relPath fileBytes).verify = .ok () := by
  have hdp : (derivePublicKey priv).length = 32 := by
    simpa [derivePublicKey] using hpriv
  simp [archMemo, Memo.verify, archProtected, kmFromDid, kmFromPublicKey,
    kmVerify, edVerify, hdp, toLink, hashNew, Hash.asBytes]

/-- The byte stream the archive loop emits: for each file, the memo
block followed by the body block. -/
def archStream (priv nickname : List Nat)
    (guess : List Nat → Option (List Nat)) (now : Nat) :
    List (List Nat × List Nat) → List Nat
  | [] => []
  | (p, b) :: rest =>
    writeBlock (memoToValue (archMemo priv nickname guess now p b)) ++
      (writeBlock (.bytes b) ++ archStream priv nickname guess now rest)

theorem archiveGo_eq (priv nickname : List Nat)
    (guess : List Nat → Option (List Nat)) (now : Nat)
    (hpriv : priv.length = 32) :
    ∀ files, archiveGo ⟨derivePublicKey priv, some priv⟩ nickname guess now
      files =
      .ok (archStream priv nickname guess now files,
        files.map fun pb => archMemo priv nickname guess now pb.1 pb.2) := by
  intro files
  induction files with
  | nil => simp [archiveGo, archStream]
  | cons pb rest ih =>
    obtain ⟨p, b⟩ := pb
    simp [archiveGo, archStream,
      archiveFile_eq priv nickname guess now p b hpriv, ih,
      List.append_assoc]

theorem unarchiveList_archStream (priv nickname : List Nat)
    (guess : List Nat → Option (List Nat)) (now : Nat)
    (hpriv : priv.length = 32) (hprivB : ∀ x ∈ priv, x < 256)
    (hnow : now < 2 ^ 64) (hnick : nickname.length < 2 ^ 32)
    (hguess : ∀ pa ct, guess pa = some ct → ct.length < 2 ^ 32) :
    ∀ files : List (List Nat × List Nat), ∀ fuel,
      (∀ pb ∈ files, pb.1.length < 2 ^ 32 ∧ pb.2.length < 2 ^ 32) →
      (archStream priv nickname guess now files).length < fuel →
      unarchiveList fuel (archStream priv nickname guess now files) =
        files.map fun pb =>
          .ok (archMemo priv nickname guess now pb.1 pb.2, pb.2) := by
  intro files
  induction files with
  | nil =>
    intro fuel hb hf
    obtain ⟨f, rfl⟩ : ∃ f, fuel = f + 1 := ⟨fuel - 1, by omega⟩
    simp [archStream, unarchiveList, unarchiverNext, readArchiveMemoPair,
      readBlockMemo, readBlockValue_nil]
  | cons pb rest ih =>
    obtain ⟨p, b⟩ := pb
    intro fuel hb hf
    have hbp := hb (p, b) (List.mem_cons_self _ _)
    have hwf := archMemo_wf priv nickname guess now p b hpriv hprivB
    have hval := archMemo_vvalid priv nickname guess now p b hpriv hnow
      hnick (fun ct h => hguess p ct h) hbp.1 hbp.2
    obtain ⟨f, rfl⟩ : ∃ f, fuel = f + 1 := ⟨fuel - 1, by omega⟩
    have hm := readBlockMemo_roundtrip
      (archMemo priv nickname guess now p b)
      (encodeVal (.bytes b) ++ archStream priv nickname guess now rest)
      hwf hval
    have hbb := readBlockBytes_roundtrip b
      (archStream priv nickname guess now rest) (by
        have h : b.length < 2 ^ 32 := hbp.2; omega)
    have h1 := encodeVal_length_pos
      (memoToValue (archMemo priv nickname guess now p b))
    have h2 := encodeVal_length_pos (Value.bytes b)
    have hflt : (archStream priv nickname guess now rest).length < f := by
      simp only [archStream, writeBlock, List.length_append] at hf
      omega
    simp only [archStream, writeBlock]
    simp only [unarchiveList, unarchiverNext, readArchiveMemoPair, hm, hbb]
    simp only [List.map_cons, List.cons.injEq, true_and]
    exact ih f (fun q hq => hb q (List.mem_cons_of_mem _ hq)) hflt

/-- C4: archiving a directory writes, for each regular file in walker
order, a signed memo whose path is the directory-relative path and whose
src is the hash of the canonical CBOR byte-string encoding of the file
bytes, followed by the body as a byte string; reading the stream back
yields exactly the manifest memos paired with the original bodies, in
order. The hypotheses state that the signing key is an actual 32-byte
key and that the current time, the nickname, the paths, the bodies and
the guessed content types are inside the 64-bit encoding limits, all of
which the Rust types and filesystem guarantee. -/
theorem claim_C4 (priv nickname : List Nat)
    (guess : List Nat → Option (List Nat)) (now : Nat)
    (files : List (List Nat × List Nat))
    (hpriv : priv.length = 32) (hprivB : ∀ x ∈ priv, x < 256)
    (hnow : now < 2 ^ 64) (hnick : nickname.length < 2 ^ 32)
    (hguess : ∀ pa ct, guess pa = some ct → ct.length < 2 ^ 32)
    (hfiles : ∀ pb ∈ files, pb.1.length < 2 ^ 32 ∧ pb.2.length < 2 ^ 32) :
    ∃ stream manifest,
      archive ⟨nickname, ⟨derivePublicKey priv⟩, some priv⟩ guess now files =
        .ok (stream, manifest) ∧
      List.Forall₂ (fun (m : Memo) (pb : List Nat × List Nat) =>
        m.protected_.path = some pb.1 ∧
        m.protected_.src = toLink (.bytes pb.2) ∧
        m.protected_.iss = some ⟨derivePublicKey priv⟩ ∧
        m.verify = .ok ()) manifest files ∧
      unarchiveAll stream =
        List.zipWith (fun m pb => Except.ok (m, pb.2)) manifest files := by
  refine ⟨archStream priv nickname guess now files,
    files.map fun pb => archMemo priv nickname guess now pb.1 pb.2,
    ?_, ?_, ?_⟩
  · simp [archive, kmFromContact, kmFromPrivateKey, hpriv,
      archiveGo_eq priv nickname guess now hpriv files]
  · rw [List.forall₂_map_left_iff, List.forall₂_same]
    intro pb hmem
    exact ⟨rfl, rfl, rfl,
      archMemo_verify priv nickname guess now pb.1 pb.2 hpriv⟩
  · rw [unarchiveAll, unarchiveList_archStream priv nickname guess now
      hpriv hprivB hnow hnick hguess files _ hfiles (by omega)]
    rw [List.zipWith_map_left, List.zipWith_same]

/-- C4 witness: the two-file directory of the conformance test, with a
fresh 32-byte key, an empty guesser and time zero. -/
theorem claim_C4_witness :
    ∃ stream manifest,
      archive ⟨[97], ⟨derivePublicKey privC⟩, some privC⟩
        (fun _ => none) 0
        [([97, 46, 116, 120, 116], [49]),
         ([98, 47, 99, 46, 116, 120, 116], [50, 50])] =
        .ok (stream, manifest) ∧
      List.Forall₂ (fun (m : Memo) (pb : List Nat × List Nat) =>
        m.protected_.path = some pb.1 ∧
        m.protected_.src = toLink (.bytes pb.2) ∧
        m.protected_.iss = some ⟨derivePublicKey privC⟩ ∧
        m.verify = .ok ()) manifest
        [([97, 46, 116, 120, 116], [49]),
         ([98, 47, 99, 46, 116, 120, 116], [50, 50])] ∧
      unarchiveAll stream =
        List.zipWith (fun m pb => Except.ok (m, pb.2)) manifest
          [([97, 46, 116, 120, 116], [49]),
           ([98, 47, 99, 46, 116, 120, 116], [50, 50])] :=
  claim_C4 privC [97] (fun _ => none) 0
    [([97, 46, 116, 120, 116], [49]),
     ([98, 47, 99, 46, 116, 120, 116], [50, 50])]
    (by decide) (by decide) (by decide) (by decide)
    (fun pa ct h => Option.noConfusion h) (by decide)

end Szdt

